import Mathlib

/-!
Verification development for the static-ad-translation plugin (src/code.ts).

The plugin's core is a codec between per-character style runs of a text node
and a constrained inline-styled markup: `extractTextNode`/`buildStyleString`
encode runs to markup, `parseHTML`/`parseHTMLRecursive`/`parseStyleString`
decode markup back to (text, style) segments, and a collection of pure
helpers (`parseColor`, `parseLetterSpacing`, `parseLineHeight`,
`escapeHtml`, `decodeHTML`, `extractPlainTextFromHTML`) handle units,
colors and entity escaping.  The review workflow (`figma.ui.onmessage`,
`uploadTranslations`) chunks oversized payloads and manages per-language
review state.

Strings are modelled as `List Char`; JavaScript string primitives
(`replace` with a global regex, `indexOf`, `substr`, `split`, `trim`,
`parseFloat`) are modelled by explicit recursive functions below.  Scanning
functions that the source writes as index-advancing `while` loops are
modelled as structurally recursive functions on the remaining suffix with a
fuel argument equal to the input length (the source loops only ever access
positions at or after the cursor, so the suffix view is exact); wrapper
definitions supply the fuel and `*_congr` lemmas show the result does not
depend on the fuel once it is at least the input length.
-/

namespace AdTrans

set_option maxRecDepth 40000 in
/-- Convert a string literal to the `List Char` representation used
throughout this file. -/
def tl (s : String) : List Char := s.toList

/-- The apostrophe character (U+0027), written via its code point. -/
def apos : Char := Char.ofNat 39

/-- JavaScript `\s` / `trim` whitespace, restricted to the ASCII range
(the source only ever meets ASCII whitespace in markup). -/
def isSpaceJS (c : Char) : Bool :=
  c = ' ' || c = '\t' || c = '\n' || c = '\r' || c = Char.ofNat 11 || c = Char.ofNat 12

/-- Does `p` occur as a prefix of `s`?  Models `s.startsWith(p)` /
anchored regex matching on character lists. -/
def startsWithCh : List Char → List Char → Bool
  | [], _ => true
  | _ :: _, [] => false
  | p :: ps, c :: cs => if p = c then startsWithCh ps cs else false

/-- Does `p` occur as a suffix of `s`?  Models `s.endsWith(p)`. -/
def endsWithCh (p s : List Char) : Bool := startsWithCh p.reverse s.reverse

/-- Does `p` occur as a contiguous substring of `s`?  Models
`s.includes(p)`. -/
def hasSub (p : List Char) : List Char → Bool
  | [] => startsWithCh p []
  | c :: cs => startsWithCh p (c :: cs) || hasSub p cs

/-- Index of the first occurrence of `p` in `s`, models `s.indexOf(p)`
(with `none` for `-1`). -/
def indexOfSub (p : List Char) : List Char → Option Nat
  | [] => if p = [] then some 0 else none
  | c :: cs =>
    if startsWithCh p (c :: cs) then some 0
    else (indexOfSub p cs).map (· + 1)

/-- Models `s.indexOf(p, start)`. -/
def indexOfFrom (p s : List Char) (start : Nat) : Option Nat :=
  (indexOfSub p (s.drop start)).map (· + start)

/-- Models `s.toLowerCase()` (ASCII). -/
def lowerL (s : List Char) : List Char := s.map Char.toLower

/-- Models `s.trim()`. -/
def trimCh (s : List Char) : List Char :=
  ((s.dropWhile isSpaceJS).reverse.dropWhile isSpaceJS).reverse

/-- Models `s.split(sep)` for a single-character separator. -/
def splitOnCh (sep : Char) : List Char → List (List Char)
  | [] => [[]]
  | c :: cs =>
    if c = sep then [] :: splitOnCh sep cs
    else
      match splitOnCh sep cs with
      | h :: t => (c :: h) :: t
      | [] => [[c]]

/-- Fuel-driven worker for `replaceAllCh`: replace every (leftmost,
non-overlapping) occurrence of `p` by `r`, as JavaScript
`s.replace(/p/g, r)` does for a literal pattern. -/
def replaceAllF (p r : List Char) : Nat → List Char → List Char
  | 0, s => s
  | _ + 1, [] => []
  | fuel + 1, c :: s =>
    if p ≠ [] ∧ startsWithCh p (c :: s) then
      r ++ replaceAllF p r fuel (s.drop (p.length - 1))
    else c :: replaceAllF p r fuel s

/-- Models `s.replace(/p/g, r)` for a literal nonempty pattern `p`. -/
def replaceAllCh (p r s : List Char) : List Char := replaceAllF p r s.length s

/-- Models `s.replace(p, r)` with a *string* first argument: JavaScript
replaces only the first occurrence. -/
def replaceFirstCh (p r : List Char) : List Char → List Char
  | [] => []
  | c :: s =>
    if startsWithCh p (c :: s) then r ++ s.drop (p.length - 1)
    else c :: replaceFirstCh p r s

/-! ### Entity escaping and decoding (escapeHtml / decodeHTML) -/

/-- Models `escapeHtml` from the source: five sequential global
single-character replaces, ampersand first. -/
def escapeHtml (s : List Char) : List Char :=
  replaceAllCh [apos] (tl "&#039;")
    (replaceAllCh ['"'] (tl "&quot;")
      (replaceAllCh ['>'] (tl "&gt;")
        (replaceAllCh ['<'] (tl "&lt;")
          (replaceAllCh ['&'] (tl "&amp;") s))))

/-- Models `decodeHTML` from the source: five sequential global entity
replaces, `&lt;` first and `&amp;` last. -/
def decodeHTML (s : List Char) : List Char :=
  replaceAllCh (tl "&amp;") ['&']
    (replaceAllCh (tl "&#039;") [apos]
      (replaceAllCh (tl "&quot;") ['"']
        (replaceAllCh (tl "&gt;") ['>']
          (replaceAllCh (tl "&lt;") ['<'] s))))

/-! ### Line-break replacement: html.replace(/<br\s*\/?>/gi, ...) -/

/-- After `<br` and `k` whitespace characters, an optional `/` and a
mandatory `>` complete the line-break tag; returns the total match length. -/
def brLenTail (k : Nat) (t : List Char) : Option Nat :=
  match t with
  | '/' :: '>' :: _ => some (3 + k + 2)
  | '>' :: _ => some (3 + k + 1)
  | _ => none

/-- Core of the `<br\s*\/?>` matcher once three characters are available. -/
def brLenCore (a c1 c2 : Char) (rest : List Char) : Option Nat :=
  if a = '<' ∧ c1.toLower = 'b' ∧ c2.toLower = 'r' then
    brLenTail (rest.takeWhile isSpaceJS).length
      (rest.drop (rest.takeWhile isSpaceJS).length)
  else none

/-- Length of a `<br\s*\/?>` match (case-insensitive) at the start of the
list, or `none`. -/
def brLen (s : List Char) : Option Nat :=
  match s with
  | a :: c1 :: c2 :: rest => brLenCore a c1 c2 rest
  | _ => none

/-- Fuel-driven worker for the `<br\s*\/?>` → `\n` global replace. -/
def replaceBrF : Nat → List Char → List Char
  | 0, s => s
  | _ + 1, [] => []
  | fuel + 1, c :: s =>
    match brLen (c :: s) with
    | some n => '\n' :: replaceBrF fuel ((c :: s).drop n)
    | none => c :: replaceBrF fuel s

/-- Models `html.replace(/<br\s*\/?>/gi, '\n')`. -/
def replaceBr (s : List Char) : List Char := replaceBrF s.length s

/-! ### Tag stripping: text.replace(/<[^>]+>/g, '') -/

/-- Fuel-driven worker for the tag-stripping global replace: at each `<`,
if some later `>` exists with a nonempty interior, the whole tag is
removed; otherwise the character passes through. -/
def stripF : Nat → List Char → List Char
  | 0, s => s
  | _ + 1, [] => []
  | fuel + 1, c :: s =>
    if c = '<' then
      match indexOfSub ['>'] s with
      | some i => if i = 0 then c :: stripF fuel s else stripF fuel (s.drop (i + 1))
      | none => c :: stripF fuel s
    else c :: stripF fuel s

/-- Models the tag-removal in `extractPlainTextFromHTML`. -/
def stripTags (s : List Char) : List Char := stripF s.length s

/-- Models `extractPlainTextFromHTML`: br → newline, strip tags, decode
entities. -/
def extractPlainTextFromHTML (html : List Char) : List Char :=
  decodeHTML (stripTags (replaceBr html))

/-! ### ParsedHTMLSegment styles and parseStyleString -/

/-- Models the `styles` record of `ParsedHTMLSegment`: eight optional raw
string-valued CSS properties. -/
structure HStyles where
  fontFamily : Option (List Char) := none
  fontWeight : Option (List Char) := none
  fontStyle : Option (List Char) := none
  fontSize : Option (List Char) := none
  color : Option (List Char) := none
  textDecoration : Option (List Char) := none
  letterSpacing : Option (List Char) := none
  lineHeight : Option (List Char) := none
deriving DecidableEq

/-- The always-empty `currentStyles` of the top-level `parseHTML` scan
(the source declares it and never assigns to it). -/
def emptyStyles : HStyles := {}

/-- Models `value.replace(/^['"]|['"]$/g, '')`: remove one leading and one
trailing quote character. -/
def dropQuoteEnds (v : List Char) : List Char :=
  let v1 := match v with
    | c :: rest => if c = '"' ∨ c = apos then rest else v
    | [] => v
  match v1.getLast? with
  | some c => if c = '"' ∨ c = apos then v1.dropLast else v1
  | none => v1

/-- One iteration of the `parseStyleString` loop: split a `key:value`
declaration and assign the matching style field. -/
def applyStylePart (st : HStyles) (part : List Char) : HStyles :=
  match indexOfSub [':'] part with
  | none => st
  | some i =>
    let key := trimCh (part.take i)
    let value := trimCh (part.drop (i + 1))
    if key = [] ∨ value = [] then st
    else if key = tl "font-family" then { st with fontFamily := some (dropQuoteEnds value) }
    else if key = tl "font-weight" then { st with fontWeight := some value }
    else if key = tl "font-style" then { st with fontStyle := some value }
    else if key = tl "font-size" then { st with fontSize := some (replaceFirstCh (tl "px") [] value) }
    else if key = tl "color" then { st with color := some value }
    else if key = tl "text-decoration" then { st with textDecoration := some value }
    else if key = tl "letter-spacing" then { st with letterSpacing := some value }
    else if key = tl "line-height" then { st with lineHeight := some value }
    else st

/-- Models `parseStyleString`: split the flat attribute string on `;` and
fold the declarations left to right. -/
def parseStyleString (s : List Char) : HStyles :=
  (splitOnCh ';' s).foldl applyStylePart emptyStyles

/-- Models `ParsedHTMLSegment`: a text slice with its resolved raw styles. -/
structure HSeg where
  text : List Char
  styles : HStyles
deriving DecidableEq

/-- Models the `{ ...styles, fontStyle: 'italic' }` spread used for
emphasis elements. -/
def setItalic (st : HStyles) : HStyles := { st with fontStyle := some (tl "italic") }

/-- Flush the accumulated literal text of the top-level scan (pushes a
segment only when the text is nonempty, as `if (currentText)` does). -/
def flushTop (cur : List Char) : List HSeg :=
  if cur = [] then [] else [⟨decodeHTML cur, emptyStyles⟩]

/-- Flush the accumulated literal text of `parseHTMLRecursive` under the
inherited base styles. -/
def flushRec (base : HStyles) (cur : List Char) : List HSeg :=
  if cur = [] then [] else [⟨decodeHTML cur, base⟩]

/-! ### The span-open regex and the two scanners -/

/-- Anchored match of `<span\s+style="([^"]+)">` at the start of the list,
returning the captured attribute string and the match length.  Greedy
`\s+` and `[^"]+` with no backtracking coincide with the regex here since
the following literal characters (`s`, `"`) are excluded from the
preceding classes. -/
def matchSpanOpenAt (s : List Char) : Option (List Char × Nat) :=
  if startsWithCh (tl "<span") s then
    let s1 := s.drop 5
    let sp := s1.takeWhile isSpaceJS
    if sp = [] then none
    else
      let s2 := s1.drop sp.length
      if startsWithCh (tl "style=\"") s2 then
        let s3 := s2.drop 7
        let g := s3.takeWhile (fun c => c != '"')
        if g = [] then none
        else if startsWithCh (tl "\">") (s3.drop g.length) then
          some (g, 5 + sp.length + 7 + g.length + 2)
        else none
      else none
  else none

/-- Unanchored search of `html.substr(i).match(/<span\s+style="([^"]+)">/)`:
the first position where the span-open regex matches, keeping only the
captured group and the match length (the source uses only
`styleMatch[0].length` and `styleMatch[1]`, never the match offset). -/
def findSpanMatch : List Char → Option (List Char × Nat)
  | [] => none
  | c :: cs =>
    match matchSpanOpenAt (c :: cs) with
    | some r => some r
    | none => findSpanMatch cs

/-- Fuel-driven worker for `parseHTMLRecursive`: a character-by-character
scan of a span's inner content that recognises only `<em>...</em>`
elements; everything else is literal text under `base`. -/
def parseRecF : Nat → List Char → HStyles → List Char → List HSeg
  | 0, _, base, cur => flushRec base cur
  | _ + 1, [], base, cur => flushRec base cur
  | fuel + 1, c :: s, base, cur =>
    if startsWithCh (tl "<em>") (c :: s) then
      flushRec base cur ++
        match indexOfFrom (tl "</em>") (c :: s) 4 with
        | some closeIdx =>
          ⟨decodeHTML (((c :: s).drop 4).take (closeIdx - 4)), setItalic base⟩ ::
            parseRecF fuel ((c :: s).drop (closeIdx + 5)) base []
        | none => parseRecF fuel s base [c]
    else parseRecF fuel s base (cur ++ [c])

/-- Models `parseHTMLRecursive(html, baseStyles)` (with an explicit
`currentText` accumulator, initially empty at the call site). -/
def parseRec (s : List Char) (base : HStyles) (cur : List Char) : List HSeg :=
  parseRecF s.length s base cur

/-- Fuel-driven worker for the top-level `parseHTML` scan.  The source
advances an index `i` into the full string and only ever reads positions
`≥ i`; the suffix from `i` is the first list argument here, so
`styleMatch[0].length`, `indexOf(..., tagEnd)` and `substring` offsets are
relative to that suffix. -/
def scanTopF : Nat → List Char → List Char → List HSeg
  | 0, _, cur => flushTop cur
  | _ + 1, [], cur => flushTop cur
  | fuel + 1, c :: s, cur =>
    if startsWithCh (tl "<span") (c :: s) then
      flushTop cur ++
        match findSpanMatch (c :: s) with
        | some (style, mlen) =>
          match indexOfFrom (tl "</span>") (c :: s) mlen with
          | some closeIdx =>
            parseRec (((c :: s).drop mlen).take (closeIdx - mlen)) (parseStyleString style) [] ++
              scanTopF fuel ((c :: s).drop (closeIdx + 7)) []
          | none => scanTopF fuel s [c]
        | none => scanTopF fuel s [c]
    else if startsWithCh (tl "<em>") (c :: s) then
      flushTop cur ++
        match indexOfFrom (tl "</em>") (c :: s) 4 with
        | some closeIdx =>
          ⟨decodeHTML (((c :: s).drop 4).take (closeIdx - 4)), setItalic emptyStyles⟩ ::
            scanTopF fuel ((c :: s).drop (closeIdx + 5)) []
        | none => scanTopF fuel s [c]
    else scanTopF fuel s (cur ++ [c])

/-- Models the scanning loop of `parseHTML` (after line-break
replacement). -/
def scanTop (s cur : List Char) : List HSeg := scanTopF s.length s cur

/-- Models `parseHTML`: replace line-break elements by newlines, then scan. -/
def parseHTML (html : List Char) : List HSeg := scanTop (replaceBr html) []

/-! ### Number rendering (template-literal interpolation of numeric values) -/

/-- The decimal digit character for `n < 10`. -/
def digitChar (n : Nat) : Char := Char.ofNat (48 + n)

/-- Fuel-driven decimal digit expansion of a natural number. -/
def natDigitsF : Nat → Nat → List Char → List Char
  | 0, _, acc => acc
  | fuel + 1, n, acc =>
    if n < 10 then digitChar n :: acc
    else natDigitsF fuel (n / 10) (digitChar (n % 10) :: acc)

/-- Decimal rendering of a natural number. -/
def natToCh (n : Nat) : List Char := natDigitsF (n + 1) n []

/-- Fuel-driven decimal expansion of the fractional part `r/d` (`r < d`);
stops at a zero remainder.  The numeric values the plugin renders are
finite decimals, for which this is the exact JavaScript rendering. -/
def fracDigits : Nat → Nat → Nat → List Char
  | 0, _, _ => []
  | fuel + 1, r, d =>
    if r = 0 then [] else digitChar (r * 10 / d) :: fracDigits fuel (r * 10 % d) d

/-- Decimal rendering of a rational, modelling the template-literal
interpolation of a numeric style value into the style string. -/
def numToString (q : ℚ) : List Char :=
  (if q < 0 then ['-'] else []) ++ natToCh (q.num.natAbs / q.den) ++
    (if fracDigits 30 (q.num.natAbs % q.den) q.den = [] then []
     else '.' :: fracDigits 30 (q.num.natAbs % q.den) q.den)

/-! ### Style runs and the markup encoder (extractTextNode / buildStyleString) -/

/-- Figma's two numeric unit tags at the mutation boundary. -/
inductive FUnit
  | PIXELS
  | PERCENT
deriving DecidableEq

/-- Non-`NONE` values of Figma's `TextDecoration`. -/
inductive FDecoration
  | UNDERLINE
  | STRIKETHROUGH
deriving DecidableEq

/-- Models Figma's `FontName`. -/
structure FontNameM where
  family : List Char
  style : List Char
deriving DecidableEq

/-- An already 0–255-rounded fill color, as `extractTextNode` computes it. -/
structure RGB255 where
  r : Nat
  g : Nat
  b : Nat
deriving DecidableEq

/-- Models the internal `StyleRun` record of `extractTextNode`: one styled
text slice.  Optional fields are present exactly when the source sets
them (fill only for a visible solid paint, decoration only when not
`NONE`, line-height unit only when the host reports one). -/
structure StyleRun where
  text : List Char
  font : FontNameM
  fontSize : ℚ
  fill : Option RGB255 := none
  textDecoration : Option FDecoration := none
  letterSpacing : Option (ℚ × FUnit) := none
  lineHeight : Option (ℚ × Option FUnit) := none
deriving DecidableEq

/-- The font-weight inferred from a style name by `buildStyleString`:
lowercase substring checks, semibold before bold, medium, light, thin,
black/heavy, otherwise 400. -/
def weightOf (styleName : List Char) : Nat :=
  if hasSub (tl "semibold") (lowerL styleName) || hasSub (tl "semi bold") (lowerL styleName) then 600
  else if hasSub (tl "bold") (lowerL styleName) then 700
  else if hasSub (tl "medium") (lowerL styleName) then 500
  else if hasSub (tl "light") (lowerL styleName) then 300
  else if hasSub (tl "thin") (lowerL styleName) then 100
  else if hasSub (tl "black") (lowerL styleName) || hasSub (tl "heavy") (lowerL styleName) then 900
  else 400

/-- The separate italic substring check of `buildStyleString`. -/
def italicOf (styleName : List Char) : Bool := hasSub (tl "italic") (lowerL styleName)

/-- Rendering of a decoration value (`toLowerCase` plus `_` → `-`, which
is the identity on Figma's two non-`NONE` decoration names). -/
def decorationStr : FDecoration → List Char
  | FDecoration.UNDERLINE => tl "underline"
  | FDecoration.STRIKETHROUGH => tl "strikethrough"

/-- Unit suffix appended to letter-spacing / line-height values. -/
def unitSuffix : FUnit → List Char
  | FUnit.PERCENT => ['%']
  | FUnit.PIXELS => tl "px"

/-- Models `parts.join(';')`. -/
def joinSemi : List (List Char) → List Char
  | [] => []
  | [p] => p
  | p :: q :: ps => p ++ ';' :: joinSemi (q :: ps)

/-- Models `buildStyleString`: emit properties in the fixed canonical
order, conditional parts only when present. -/
def buildStyleString (r : StyleRun) : List Char :=
  joinSemi
    ([tl "font-family:" ++ r.font.family,
      tl "font-weight:" ++ natToCh (weightOf r.font.style)]
      ++ (if italicOf r.font.style then [tl "font-style:italic"] else [])
      ++ [tl "font-size:" ++ numToString r.fontSize ++ tl "px"]
      ++ (match r.fill with
          | some f =>
            [tl "color:rgb(" ++ natToCh f.r ++ [','] ++ natToCh f.g ++ [','] ++ natToCh f.b ++ [')']]
          | none => [])
      ++ (match r.textDecoration with
          | some d => [tl "text-decoration:" ++ decorationStr d]
          | none => [])
      ++ (match r.letterSpacing with
          | some p => [tl "letter-spacing:" ++ numToString p.1 ++ unitSuffix p.2]
          | none => [])
      ++ (match r.lineHeight with
          | some (v, some u) => [tl "line-height:" ++ numToString v ++ unitSuffix u]
          | some (v, none) => [tl "line-height:" ++ numToString v ++ tl "px"]
          | none => []))

/-- Newline → `<br/>` replacement applied to the escaped text of a run. -/
def brEncode (s : List Char) : List Char := replaceAllCh ['\n'] (tl "<br/>") s

/-- The markup emitted for one style run by `extractTextNode`'s loop. -/
def encodeRun (r : StyleRun) : List Char :=
  tl "<span style=\"" ++ buildStyleString r ++ tl "\">" ++
    brEncode (escapeHtml r.text) ++ tl "</span>"

/-- The markup emitted for a gap-free run sequence by `extractTextNode`
(the concatenation of the per-run span elements). -/
def encodeRuns (runs : List StyleRun) : List Char := (runs.map encodeRun).flatten

/-- The segment the decoder is expected to produce for a run: the run's
text with the styles obtained by parsing the run's own style string. -/
def resolveRun (r : StyleRun) : HSeg := ⟨r.text, parseStyleString (buildStyleString r)⟩

/-- A font-family character that cannot break the markup structure: it is
not a double quote (which would end the style attribute early), not `<`
(which could start a tag or a line-break match) and not `>` (which would
end the open tag early for the tag-stripping regex). -/
def safeFamilyChar (c : Char) : Prop := c ≠ '"' ∧ c ≠ '<' ∧ c ≠ '>'

instance (c : Char) : Decidable (safeFamilyChar c) := by
  unfold safeFamilyChar
  infer_instance

/-- A style run whose encoded span element parses back to itself: the text
slice is nonempty and the font family avoids the three structural
characters. -/
def wellFormedRun (r : StyleRun) : Prop :=
  r.text ≠ [] ∧ ∀ c ∈ r.font.family, safeFamilyChar c

instance (r : StyleRun) : Decidable (wellFormedRun r) := by
  unfold wellFormedRun
  infer_instance

/-- Concatenation of the decoded segments' texts. -/
def concatTexts (segs : List HSeg) : List Char := (segs.map HSeg.text).flatten

/-! ### Unit conversion (parseLetterSpacing / parseLineHeight) -/

/-- Numeric value of a digit string (decimal). -/
def digitsVal (ds : List Char) : Nat := ds.foldl (fun acc c => acc * 10 + (c.toNat - 48)) 0

/-- The sign, integer digits, fraction digits, and signed decimal exponent
of a JavaScript-`parseFloat` numeric prefix: optional whitespace and sign,
decimal digits with an optional fraction and exponent, ignoring any
trailing garbage; `none` models `NaN` (no numeric prefix at all). -/
def jsParseParts (s : List Char) : Option (Bool × List Char × List Char × Int) :=
  let s0 := s.dropWhile isSpaceJS
  let neg : Bool := match s0 with
    | '-' :: _ => true
    | _ => false
  let s1 : List Char := match s0 with
    | '-' :: rest => rest
    | '+' :: rest => rest
    | _ => s0
  let intDs := s1.takeWhile Char.isDigit
  let s2 := s1.drop intDs.length
  let fracDs : List Char := match s2 with
    | '.' :: rest => rest.takeWhile Char.isDigit
    | _ => []
  let s3 : List Char := match s2 with
    | '.' :: rest => rest.drop (rest.takeWhile Char.isDigit).length
    | _ => s2
  if intDs = [] ∧ fracDs = [] then none
  else
    let expo : Int := match s3 with
      | e :: '-' :: r2 =>
        if (e = 'e' ∨ e = 'E') ∧ (r2.takeWhile Char.isDigit) ≠ [] then
          -(digitsVal (r2.takeWhile Char.isDigit) : Int)
        else 0
      | e :: '+' :: r2 =>
        if (e = 'e' ∨ e = 'E') ∧ (r2.takeWhile Char.isDigit) ≠ [] then
          (digitsVal (r2.takeWhile Char.isDigit) : Int)
        else 0
      | e :: r2 =>
        if (e = 'e' ∨ e = 'E') ∧ (r2.takeWhile Char.isDigit) ≠ [] then
          (digitsVal (r2.takeWhile Char.isDigit) : Int)
        else 0
      | [] => 0
    some (neg, intDs, fracDs, expo)

/-- Models JavaScript `parseFloat`: the numeric value of the parts of the
numeric prefix, `none` for `NaN`. -/
def jsParseFloat (s : List Char) : Option ℚ :=
  (jsParseParts s).map (fun p =>
    (if p.1 then (-1 : ℚ) else 1) *
      ((digitsVal p.2.1 : ℚ) + (digitsVal p.2.2.1 : ℚ) / ((10 : ℚ) ^ p.2.2.1.length)) *
      (10 : ℚ) ^ p.2.2.2)

/-- A Figma `LetterSpacing` / `LineHeight` value at the mutation boundary:
a numeric value (`none` models `NaN` from `parseFloat`) with a unit tag. -/
structure FigmaSpacing where
  value : Option ℚ
  unit : FUnit
deriving DecidableEq

/-- JavaScript numeric truthiness of the optional `fontSize` argument:
`undefined` and `0` are falsy. -/
def numTruthy : Option ℚ → Bool
  | none => false
  | some q => q != 0

/-- Models `parseLetterSpacing(lsStr, fontSize?)`. -/
def parseLetterSpacing (s : List Char) (fontSize : Option ℚ) : Option FigmaSpacing :=
  if endsWithCh (tl "%") s then some ⟨jsParseFloat s, FUnit.PERCENT⟩
  else if endsWithCh (tl "em") s then
    if numTruthy fontSize then
      some ⟨(jsParseFloat s).map (fun v => v * fontSize.getD 0), FUnit.PIXELS⟩
    else some ⟨(jsParseFloat s).map (fun v => v * 16), FUnit.PIXELS⟩
  else if endsWithCh (tl "px") s then some ⟨jsParseFloat s, FUnit.PIXELS⟩
  else none

/-- Models `parseLineHeight(lhStr, fontSize?)`. -/
def parseLineHeight (s : List Char) (fontSize : Option ℚ) : Option FigmaSpacing :=
  if endsWithCh (tl "%") s then some ⟨jsParseFloat s, FUnit.PERCENT⟩
  else if endsWithCh (tl "px") s then some ⟨jsParseFloat s, FUnit.PIXELS⟩
  else
    match jsParseFloat s with
    | some v =>
      if numTruthy fontSize then some ⟨some (v * fontSize.getD 0), FUnit.PIXELS⟩
      else some ⟨some (v * 100), FUnit.PERCENT⟩
    | none => none

/-! ### Payload chunking (the export-frame handler) -/

/-- Units per chunk (`CHUNK_SIZE` in the source). -/
def CHUNK_SIZE : Nat := 200

/-- Serialized-size threshold in bytes (`MAX_PAYLOAD_SIZE`). -/
def MAX_PAYLOAD_SIZE : Nat := 5 * 1024 * 1024

/-- Fuel-driven worker for the chunking loop
`for (i = 0; i < length; i += CHUNK_SIZE) chunks.push(slice(i, i+CHUNK_SIZE))`. -/
def chunkF {α : Type} : Nat → List α → List (List α)
  | 0, _ => []
  | _ + 1, [] => []
  | fuel + 1, x :: rest =>
    (x :: rest).take CHUNK_SIZE :: chunkF fuel ((x :: rest).drop CHUNK_SIZE)

/-- The list of 200-unit batches of a text-unit list. -/
def chunkTexts {α : Type} (xs : List α) : List (List α) := chunkF xs.length xs

/-- Batches tagged with their 1-based `{index, total}` chunk header. -/
def chunkPayloads {α : Type} (xs : List α) : List (List α × Nat × Nat) :=
  (chunkTexts xs).enum.map (fun p => (p.2, p.1 + 1, (chunkTexts xs).length))

/-- The batched payload sequence for one language: chunked with headers
when the serialized payload is oversized, otherwise one untagged payload. -/
def exportBatches {α : Type} (payloadLen : Nat) (texts : List α) :
    List (List α × Option (Nat × Nat)) :=
  if payloadLen > MAX_PAYLOAD_SIZE then
    (chunkPayloads texts).map (fun p => (p.1, some p.2))
  else [(texts, none)]

/-- The translation response retained by the sequential chunk-send loop:
`translationResponse` is assigned only on the last index and only when
that response is non-null; every earlier response is dropped. -/
def retainedResponse {R : Type} (responses : List (Option R)) : Option R :=
  responses.enum.foldl
    (fun acc p =>
      if p.1 = responses.length - 1 then
        match p.2 with
        | some r => some r
        | none => acc
      else acc)
    none

/-! ### Font fallback (applyHTMLToTextNode) -/

/-- The fallback ladder tried when italic was requested. -/
def italicAlternatives : List (List Char) :=
  [tl "Bold Italic", tl "SemiBold Italic", tl "Semi Bold Italic", tl "Medium Italic",
   tl "Italic", tl "Bold", tl "SemiBold", tl "Semi Bold", tl "Medium", tl "Regular"]

/-- The fallback ladder tried when italic was not requested. -/
def regularAlternatives : List (List Char) :=
  [tl "Bold", tl "SemiBold", tl "Semi Bold", tl "Medium", tl "Regular"]

/-- The target style name computed from the decoded weight and italic
flag (the `targetStyle` if-chain in `applyHTMLToTextNode`). -/
def targetStyleFor (weight : Option (List Char)) (isItalic : Bool)
    (currentStyle : List Char) : List Char :=
  if weight = some (tl "900") ∨ weight = some (tl "black") then
    if isItalic then tl "Black Italic" else tl "Black"
  else if weight = some (tl "700") ∨ weight = some (tl "bold") then
    if isItalic then tl "Bold Italic" else tl "Bold"
  else if weight = some (tl "600") ∨ weight = some (tl "semibold") then
    if isItalic then tl "Semi Bold Italic" else tl "Semi Bold"
  else if weight = some (tl "500") ∨ weight = some (tl "medium") then
    if isItalic then tl "Medium Italic" else tl "Medium"
  else if weight = some (tl "400") ∨ weight = some (tl "normal") ∨ weight = some (tl "regular") then
    if isItalic then tl "Italic" else tl "Regular"
  else if weight = some (tl "300") ∨ weight = some (tl "light") then
    if isItalic then tl "Light Italic" else tl "Light"
  else if isItalic then tl "Italic"
  else currentStyle

/-- The style name a range ends up requesting: the exact target if it
loads, else the first loadable alternative of the appropriate ladder,
else `none` (the range keeps its prior font).  `avail` abstracts
`figma.loadFontAsync` succeeding for a style of the fixed family. -/
def resolveFontStyle (avail : List Char → Bool) (target : List Char)
    (isItalic : Bool) : Option (List Char) :=
  if avail target then some target
  else (if isItalic then italicAlternatives else regularAlternatives).find? avail

/-! ### Color parsing (parseColor) -/

/-- The channels and optional raw alpha captured by
`/rgba?\((\d+),\s*(\d+),\s*(\d+)(?:,\s*([\d.]+))?\)/` when it matches at
the start of the list. -/
def matchColorAt (s : List Char) : Option (Nat × Nat × Nat × Option (List Char)) :=
  if startsWithCh (tl "rgb") s then
    let s1 := s.drop 3
    let s2 : List Char := match s1 with
      | 'a' :: rest => rest
      | _ => s1
    match s2 with
    | '(' :: t0 =>
      let d1 := t0.takeWhile Char.isDigit
      if d1 = [] then none
      else
        match t0.drop d1.length with
        | ',' :: t1 =>
          let t2 := t1.dropWhile isSpaceJS
          let d2 := t2.takeWhile Char.isDigit
          if d2 = [] then none
          else
            match t2.drop d2.length with
            | ',' :: t3 =>
              let t4 := t3.dropWhile isSpaceJS
              let d3 := t4.takeWhile Char.isDigit
              if d3 = [] then none
              else
                match t4.drop d3.length with
                | ')' :: _ => some (digitsVal d1, digitsVal d2, digitsVal d3, none)
                | ',' :: t5 =>
                  let t6 := t5.dropWhile isSpaceJS
                  let d4 := t6.takeWhile (fun c => c.isDigit || c = '.')
                  if d4 = [] then none
                  else
                    match t6.drop d4.length with
                    | ')' :: _ => some (digitsVal d1, digitsVal d2, digitsVal d3, some d4)
                    | _ => none
                | _ => none
            | _ => none
        | _ => none
    | _ => none
  else none

/-- Unanchored search for the color regex, as `colorStr.match(...)`. -/
def findColor : List Char → Option (Nat × Nat × Nat × Option (List Char))
  | [] => none
  | c :: cs =>
    match matchColorAt (c :: cs) with
    | some r => some r
    | none => findColor cs

/-- The normalized color produced by `parseColor`: channels divided by
255, with the optional alpha run through `parseFloat` (`none` models an
absent group; a `NaN` alpha is also collapsed to `none`, which no claim
exercises). -/
structure ParsedColor where
  r : ℚ
  g : ℚ
  b : ℚ
  opacity : Option ℚ := none
deriving DecidableEq

/-- Models `parseColor`. -/
def parseColor (s : List Char) : Option ParsedColor :=
  (findColor s).map (fun t =>
    { r := (t.1 : ℚ) / 255, g := (t.2.1 : ℚ) / 255, b := (t.2.2.1 : ℚ) / 255,
      opacity := t.2.2.2.bind jsParseFloat })

/-- A solid paint at the mutation boundary. -/
structure SolidPaintM where
  r : ℚ
  g : ℚ
  b : ℚ
  opacity : Option ℚ := none
deriving DecidableEq

/-- The fill a range ends up with after the color step of
`applyHTMLToTextNode`: replaced on a successful parse, otherwise the
prior fill is kept. -/
def applyColorToFill (prior : Option SolidPaintM) (colorStr : List Char) : Option SolidPaintM :=
  match parseColor colorStr with
  | some c => some ⟨c.r, c.g, c.b, c.opacity⟩
  | none => prior

/-! ### Review-queue construction (the export-frame handler) -/

/-- One entry of a translation response. -/
structure RespText where
  nodeId : List Char
  characters : List Char
  html : List Char
  isNew : Bool
deriving DecidableEq

/-- One exported text unit (`TextNodeData`). -/
structure TextUnitM where
  nodeId : List Char
  name : List Char
  characters : List Char
  html : List Char
deriving DecidableEq

/-- One review item (`ReviewTranslation`). -/
structure ReviewTranslationM where
  nodeId : List Char
  charactersOriginal : List Char
  characters : List Char
  charactersTranslated : List Char
  html : List Char
deriving DecidableEq

/-- Lookup in the `originalTextMap` built from the export payload
(JavaScript `Map.set` in a loop: the last write for a key wins). -/
def originalTextLookup (textNodes : List TextUnitM) (id : List Char) : Option (List Char) :=
  (textNodes.reverse.find? (fun t => t.nodeId = id)).map (fun t => t.characters)

/-- The `originalTextMap.get(t.nodeId) || t.characters` expression;
JavaScript `||` also falls through on an empty original string. -/
def origOrFallback (textNodes : List TextUnitM) (t : RespText) : List Char :=
  match originalTextLookup textNodes t.nodeId with
  | some s => if s = [] then t.characters else s
  | none => t.characters

/-- The review queue built from a translation response: one item per
`isNew` entry, in response order. -/
def buildReviewData (textNodes : List TextUnitM) (texts : List RespText) :
    List ReviewTranslationM :=
  (texts.filter (fun t => t.isNew)).map (fun t =>
    { nodeId := t.nodeId,
      charactersOriginal := origOrFallback textNodes t,
      characters := t.characters,
      charactersTranslated := extractPlainTextFromHTML t.html,
      html := t.html })

/-- The pending-review queue stored for a language: set only when at
least one entry is marked `isNew`. -/
def pendingReviewsAfter (textNodes : List TextUnitM) (texts : List RespText) :
    Option (List ReviewTranslationM) :=
  if texts.filter (fun t => t.isNew) = [] then none
  else some (buildReviewData textNodes texts)

/-- The translated markup applied to a node by `applyTranslation`'s
`translationMap` (built from *all* response entries, `isNew` or not;
the last write for a node id wins). -/
def translationHtmlFor (texts : List RespText) (id : List Char) : Option (List Char) :=
  (texts.reverse.find? (fun t => t.nodeId = id)).map (fun t => t.html)

/-! ### Upload workflow (uploadTranslations) -/

/-- A duplicated frame reference. -/
structure FrameRefM where
  id : List Char
  name : List Char
deriving DecidableEq

/-- JavaScript `Map.get` on an insertion-ordered association list. -/
def mapGet {β : Type} (k : List Char) (m : List (List Char × β)) : Option β :=
  (m.find? (fun p => p.1 = k)).map (fun p => p.2)

/-- JavaScript `Map.delete` on an insertion-ordered association list. -/
def mapDelete {β : Type} (k : List Char) (m : List (List Char × β)) :
    List (List Char × β) :=
  m.filter (fun p => p.1 ≠ k)

/-- The mutable `reviewState` owned by the review workflow. -/
structure ReviewStateM where
  duplicatedFrames : List (List Char × FrameRefM)
  pendingReviews : List (List Char × List ReviewTranslationM)
  nodeIdMappings : List (List Char × List (List Char × List Char))
  languageOrder : List (List Char)
deriving DecidableEq

/-- Observable outcome of one `uploadTranslations` call: an error leaves
the workflow where it was; success advances it, optionally loading the
next pending language's review. -/
inductive UploadOutcome
  | error
  | advanced (next : Option (List Char × List ReviewTranslationM))
deriving DecidableEq

/-- Models `uploadTranslations` for one language.  `uploadOk` abstracts
the upload `fetch` succeeding with an OK status; the frame lookup and the
fetch both throw into the surrounding `catch`, which performs no state
mutation.  The queue and mapping deletions and the advance to the first
remaining pending language happen only after a successful response. -/
def uploadStep (st : ReviewStateM) (lang : List Char) (uploadOk : Bool) :
    ReviewStateM × UploadOutcome :=
  match mapGet lang st.duplicatedFrames with
  | none => (st, UploadOutcome.error)
  | some _ =>
    if uploadOk then
      ({ st with
          pendingReviews := mapDelete lang st.pendingReviews,
          nodeIdMappings := mapDelete lang st.nodeIdMappings },
        UploadOutcome.advanced (mapDelete lang st.pendingReviews).head?)
    else (st, UploadOutcome.error)

/-! ### Character-level views of the escape pipeline (proof layer) -/

/-- The per-character effect of the five escape passes combined. -/
def escChar (c : Char) : List Char :=
  if c = '&' then tl "&amp;"
  else if c = '<' then tl "&lt;"
  else if c = '>' then tl "&gt;"
  else if c = '"' then tl "&quot;"
  else if c = apos then tl "&#039;"
  else [c]

/-- The escape image after the `&lt;` decode pass. -/
def esc1 (c : Char) : List Char :=
  if c = '&' then tl "&amp;"
  else if c = '>' then tl "&gt;"
  else if c = '"' then tl "&quot;"
  else if c = apos then tl "&#039;"
  else [c]

/-- The escape image after the `&gt;` decode pass. -/
def esc2 (c : Char) : List Char :=
  if c = '&' then tl "&amp;"
  else if c = '"' then tl "&quot;"
  else if c = apos then tl "&#039;"
  else [c]

/-- The escape image after the `&quot;` decode pass. -/
def esc3 (c : Char) : List Char :=
  if c = '&' then tl "&amp;"
  else if c = apos then tl "&#039;"
  else [c]

/-- The escape image after the `&#039;` decode pass. -/
def esc4 (c : Char) : List Char :=
  if c = '&' then tl "&amp;"
  else [c]

/-- The per-character effect of escaping followed by the newline → `<br/>`
replacement. -/
def escBr (c : Char) : List Char :=
  if c = '\n' then tl "<br/>" else escChar c

/-- The markup of one run after the decoder's own line-break replacement
has restored newlines: the span element around the merely entity-escaped
text. -/
def decodedBlock (r : StyleRun) : List Char :=
  tl "<span style=\"" ++ buildStyleString r ++ tl "\">" ++
    escapeHtml r.text ++ tl "</span>"


/-! ### Concrete values used by claim-level checks -/

/-- A plain run used by concrete round-trip checks. -/
def rW1 : StyleRun :=
  { text := tl "Hello ", font := ⟨tl "Inter", tl "Regular"⟩, fontSize := 16 }

/-- A heavily styled run (bold-italic weight, fill, decoration, spacing,
line height, an ampersand and a newline in the text) used by concrete checks. -/
def rW2 : StyleRun :=
  { text := tl "bold&co" ++ ['\n'],
    font := ⟨tl "Inter", tl "SemiBold Italic"⟩,
    fontSize := 16,
    fill := some ⟨255, 0, 0⟩,
    textDecoration := some FDecoration.UNDERLINE,
    letterSpacing := some (2, FUnit.PERCENT),
    lineHeight := some (24, some FUnit.PIXELS) }

/-- A run with empty text: encoding it produces an empty span that the
decoder drops, so the round trip loses the run. -/
def rEmpty : StyleRun :=
  { text := [], font := ⟨tl "Inter", tl "Regular"⟩, fontSize := 12 }

/-- A font catalog in which only the style "Italic" loads. -/
def availItalicOnly : List Char → Bool := fun s => s == tl "Italic"

/-- A two-node export payload used by the review-queue checks. -/
def tnW : List TextUnitM :=
  [{ nodeId := tl "1:1", name := tl "Title", characters := tl "Hello", html := tl "Hello" },
   { nodeId := tl "1:2", name := tl "Body", characters := tl "World", html := tl "World" }]

/-- A response entry marked `isNew`. -/
def t1W : RespText :=
  { nodeId := tl "1:1", characters := tl "Bonjour", html := tl "Bonjour", isNew := true }

/-- A response entry not marked `isNew`. -/
def t2W : RespText :=
  { nodeId := tl "1:2", characters := tl "Monde", html := tl "Monde", isNew := false }

/-- A two-language review state used by the upload checks. -/
def stW : ReviewStateM :=
  { duplicatedFrames := [(tl "fr", ⟨tl "100:1", tl "Ad fr"⟩), (tl "de", ⟨tl "100:2", tl "Ad de"⟩)],
    pendingReviews := [(tl "fr", []), (tl "de", [])],
    nodeIdMappings := [(tl "fr", [(tl "1:1", tl "9:1")])],
    languageOrder := [tl "fr", tl "de"] }


/-! ## Theorems.  Everything from here on is proof: fuel-congruence and
step equations for the scanners, then the codec lemmas, then the claim
theorems with their witnesses and counterexamples. -/

theorem replaceAllF_congr (p r : List Char) :
    ∀ f g s, s.length ≤ f → s.length ≤ g →
      replaceAllF p r f s = replaceAllF p r g s := by
  intro f
  induction f with
  | zero =>
    intro g s hf _
    have hs : s = [] := List.eq_nil_of_length_eq_zero (Nat.le_zero.mp hf)
    subst hs
    cases g <;> simp [replaceAllF]
  | succ f ih =>
    intro g s hf hg
    cases s with
    | nil => cases g <;> simp [replaceAllF]
    | cons c cs =>
      cases g with
      | zero => simp at hg
      | succ g =>
        simp only [replaceAllF]
        by_cases h : p ≠ [] ∧ startsWithCh p (c :: cs)
        · simp only [if_pos h]
          have hlen : (cs.drop (p.length - 1)).length ≤ f := by
            have := List.length_drop (p.length - 1) cs
            simp at hf
            omega
          have hlen' : (cs.drop (p.length - 1)).length ≤ g := by
            have := List.length_drop (p.length - 1) cs
            simp at hg
            omega
          rw [ih g _ hlen hlen']
        · simp only [if_neg h]
          have hf' : cs.length ≤ f := by simp at hf; omega
          have hg' : cs.length ≤ g := by simp at hg; omega
          rw [ih g cs hf' hg']

theorem replaceAllCh_nil (p r : List Char) : replaceAllCh p r [] = [] := by
  simp [replaceAllCh, replaceAllF]

theorem replaceAllCh_cons_pos (p r : List Char) (c : Char) (s : List Char)
    (hp : p ≠ []) (h : startsWithCh p (c :: s)) :
    replaceAllCh p r (c :: s) = r ++ replaceAllCh p r (s.drop (p.length - 1)) := by
  unfold replaceAllCh
  simp only [List.length_cons, replaceAllF, if_pos (And.intro hp h)]
  congr 1
  exact replaceAllF_congr p r s.length (s.drop (p.length - 1)).length _
    (by simp [List.length_drop]) (le_refl _)

theorem replaceAllCh_cons_neg (p r : List Char) (c : Char) (s : List Char)
    (h : ¬ (p ≠ [] ∧ startsWithCh p (c :: s))) :
    replaceAllCh p r (c :: s) = c :: replaceAllCh p r s := by
  unfold replaceAllCh
  simp only [List.length_cons, replaceAllF, if_neg h]

theorem brLen_ge (l : List Char) (n : Nat) (h : brLen l = some n) : 4 ≤ n := by
  rcases l with _ | ⟨a, l⟩
  · simp [brLen] at h
  rcases l with _ | ⟨b, l⟩
  · simp [brLen] at h
  rcases l with _ | ⟨c, l⟩
  · simp [brLen] at h
  have h' : brLenCore a b c l = some n := h
  unfold brLenCore at h'
  split at h'
  · unfold brLenTail at h'
    split at h' <;> simp_all <;> omega
  · simp at h'

theorem replaceBrF_congr :
    ∀ f g s, s.length ≤ f → s.length ≤ g → replaceBrF f s = replaceBrF g s := by
  intro f
  induction f with
  | zero =>
    intro g s hf _
    have hs : s = [] := List.eq_nil_of_length_eq_zero (Nat.le_zero.mp hf)
    subst hs
    cases g <;> simp [replaceBrF]
  | succ f ih =>
    intro g s hf hg
    cases s with
    | nil => cases g <;> simp [replaceBrF]
    | cons c cs =>
      cases g with
      | zero => simp at hg
      | succ g =>
        simp only [replaceBrF]
        rcases hbr : brLen (c :: cs) with _ | n
        · simp only []
          have hf' : cs.length ≤ f := by simp at hf; omega
          have hg' : cs.length ≤ g := by simp at hg; omega
          rw [ih g cs hf' hg']
        · simp only []
          have hn := brLen_ge _ _ hbr
          have hlen : ((c :: cs).drop n).length ≤ f := by
            simp [List.length_drop] at *
            omega
          have hlen' : ((c :: cs).drop n).length ≤ g := by
            simp [List.length_drop] at *
            omega
          rw [ih g _ hlen hlen']

theorem stripF_congr :
    ∀ f g s, s.length ≤ f → s.length ≤ g → stripF f s = stripF g s := by
  intro f
  induction f with
  | zero =>
    intro g s hf _
    have hs : s = [] := List.eq_nil_of_length_eq_zero (Nat.le_zero.mp hf)
    subst hs
    cases g <;> simp [stripF]
  | succ f ih =>
    intro g s hf hg
    cases s with
    | nil => cases g <;> simp [stripF]
    | cons c cs =>
      cases g with
      | zero => simp at hg
      | succ g =>
        have hf' : cs.length ≤ f := by simp at hf; omega
        have hg' : cs.length ≤ g := by simp at hg; omega
        simp only [stripF]
        by_cases hc : c = '<'
        · simp only [if_pos hc]
          rcases hio : indexOfSub ['>'] cs with _ | i
          · simp only []
            rw [ih g cs hf' hg']
          · simp only []
            by_cases hi : i = 0
            · simp only [if_pos hi]
              rw [ih g cs hf' hg']
            · simp only [if_neg hi]
              have hd : (cs.drop (i + 1)).length ≤ f := by
                simp [List.length_drop]
                omega
              have hd' : (cs.drop (i + 1)).length ≤ g := by
                simp [List.length_drop]
                omega
              rw [ih g _ hd hd']
        · simp only [if_neg hc]
          rw [ih g cs hf' hg']

/-! ### Prefix-matching helpers -/

theorem startsWith_nil_pat (s : List Char) : startsWithCh [] s = true := by
  cases s <;> rfl

theorem startsWith_self_append (p x : List Char) : startsWithCh p (p ++ x) = true := by
  induction p with
  | nil => exact startsWith_nil_pat x
  | cons a ps ih => simp [startsWithCh, ih]

theorem startsWith_append_or (p a x : List Char) (h : startsWithCh p (a ++ x) = true) :
    startsWithCh p a = true ∨ startsWithCh a p = true := by
  induction a generalizing p with
  | nil => right; exact startsWith_nil_pat p
  | cons b bs ih =>
    cases p with
    | nil => left; rfl
    | cons q ps =>
      rw [List.cons_append] at h
      simp only [startsWithCh] at h ⊢
      by_cases hqb : q = b
      · subst hqb
        simp only [if_pos rfl] at h ⊢
        exact ih ps h
      · rw [if_neg hqb] at h
        simp at h

theorem replaceAllCh_front (p r : List Char) (hp : p ≠ []) (x : List Char) :
    replaceAllCh p r (p ++ x) = r ++ replaceAllCh p r x := by
  cases p with
  | nil => exact absurd rfl hp
  | cons q ps =>
    have h := replaceAllCh_cons_pos (q :: ps) r q (ps ++ x) hp
      (by
        have := startsWith_self_append (q :: ps) x
        simpa using this)
    show replaceAllCh (q :: ps) r (q :: (ps ++ x)) = _
    rw [h]
    congr 1
    have hlen : (q :: ps).length - 1 = ps.length := by simp
    rw [hlen, List.drop_left]

theorem replaceAllCh_skip_block (p r : List Char) (_hp : p ≠ []) :
    ∀ (TOK x : List Char),
      (∀ k, k < TOK.length →
        startsWithCh p (TOK.drop k) = false ∧ startsWithCh (TOK.drop k) p = false) →
      replaceAllCh p r (TOK ++ x) = TOK ++ replaceAllCh p r x := by
  intro TOK
  induction TOK with
  | nil => intro x _; simp
  | cons t ts ih =>
    intro x hb
    have h0 := hb 0 (by simp)
    simp only [List.drop_zero] at h0
    have hnm : startsWithCh p ((t :: ts) ++ x) = false := by
      cases hsw : startsWithCh p ((t :: ts) ++ x)
      · rfl
      · rcases startsWith_append_or p (t :: ts) x hsw with h1 | h1
        · rw [h0.1] at h1; simp at h1
        · rw [h0.2] at h1; simp at h1
    rw [List.cons_append] at hnm
    rw [List.cons_append, replaceAllCh_cons_neg _ _ _ _ (by
      intro hcon
      rw [hnm] at hcon
      exact absurd hcon.2 (by simp))]
    rw [ih x (fun k hk => by simpa using hb (k + 1) (by simpa using hk))]
    rfl

theorem replaceAllCh_single (a : Char) (r : List Char) (s : List Char) :
    replaceAllCh [a] r s = s.flatMap (fun c => if c = a then r else [c]) := by
  induction s with
  | nil => simp [replaceAllCh_nil]
  | cons c cs ih =>
    by_cases h : c = a
    · subst h
      rw [replaceAllCh_cons_pos [c] r c cs (by simp) (by simp [startsWithCh])]
      simp only [List.length_cons, List.length_nil, Nat.sub_self, List.drop_zero,
        List.flatMap_cons, if_pos rfl]
      simp [ih]
    · rw [replaceAllCh_cons_neg _ _ _ _ (by
        intro hcon
        have := hcon.2
        simp only [startsWithCh] at this
        rw [if_neg (fun hh => h hh.symm)] at this
        simp at this)]
      simp only [List.flatMap_cons, if_neg h]
      rw [ih]
      rfl

/-! ### escapeHtml as a character map -/

theorem escapeHtml_flatMap (s : List Char) : escapeHtml s = s.flatMap escChar := by
  unfold escapeHtml
  rw [replaceAllCh_single, replaceAllCh_single, replaceAllCh_single, replaceAllCh_single,
    replaceAllCh_single, List.flatMap_assoc, List.flatMap_assoc, List.flatMap_assoc,
    List.flatMap_assoc]
  congr 1
  funext c
  by_cases h1 : c = '&'
  · subst h1; decide
  by_cases h2 : c = '<'
  · subst h2; decide
  by_cases h3 : c = '>'
  · subst h3; decide
  by_cases h4 : c = '"'
  · subst h4; decide
  by_cases h5 : c = apos
  · subst h5; decide
  simp [escChar, h1, h2, h3, h4, h5]

theorem escChar_ne_nil (c : Char) : escChar c ≠ [] := by
  by_cases h1 : c = '&'
  · subst h1; decide
  by_cases h2 : c = '<'
  · subst h2; decide
  by_cases h3 : c = '>'
  · subst h3; decide
  by_cases h4 : c = '"'
  · subst h4; decide
  by_cases h5 : c = apos
  · subst h5; decide
  simp [escChar, h1, h2, h3, h4, h5]

theorem escChar_safe (c d : Char) (h : d ∈ escChar c) : d ≠ '<' ∧ d ≠ '"' ∧ d ≠ '>' := by
  by_cases h1 : c = '&'
  · subst h1
    have he : escChar '&' = tl "&amp;" := by decide
    rw [he] at h
    simp [tl] at h
    rcases h with rfl | rfl | rfl | rfl | rfl <;> decide
  by_cases h2 : c = '<'
  · subst h2
    have he : escChar '<' = tl "&lt;" := by decide
    rw [he] at h
    simp [tl] at h
    rcases h with rfl | rfl | rfl | rfl <;> decide
  by_cases h3 : c = '>'
  · subst h3
    have he : escChar '>' = tl "&gt;" := by decide
    rw [he] at h
    simp [tl] at h
    rcases h with rfl | rfl | rfl | rfl <;> decide
  by_cases h4 : c = '"'
  · subst h4
    have he : escChar '"' = tl "&quot;" := by decide
    rw [he] at h
    simp [tl] at h
    rcases h with rfl | rfl | rfl | rfl | rfl | rfl <;> decide
  by_cases h5 : c = apos
  · subst h5
    have he : escChar apos = tl "&#039;" := by decide
    rw [he] at h
    simp [tl] at h
    rcases h with rfl | rfl | rfl | rfl | rfl | rfl <;> decide
  have he : escChar c = [c] := by simp [escChar, h1, h2, h3, h4, h5]
  rw [he] at h
  simp at h
  subst h
  exact ⟨h2, h4, h3⟩

theorem escapeHtml_safe (t : List Char) :
    ∀ d ∈ escapeHtml t, d ≠ '<' ∧ d ≠ '"' ∧ d ≠ '>' := by
  rw [escapeHtml_flatMap]
  intro d hd
  rw [List.mem_flatMap] at hd
  obtain ⟨c, _, hc⟩ := hd
  exact escChar_safe c d hc

theorem escapeHtml_ne_nil (t : List Char) (h : t ≠ []) : escapeHtml t ≠ [] := by
  rw [escapeHtml_flatMap]
  cases t with
  | nil => exact absurd rfl h
  | cons c cs =>
    simp only [List.flatMap_cons]
    intro hc
    rcases List.append_eq_nil.mp hc with ⟨he, _⟩
    exact escChar_ne_nil c he

theorem escapeHtml_append (a b : List Char) :
    escapeHtml (a ++ b) = escapeHtml a ++ escapeHtml b := by
  simp [escapeHtml_flatMap, List.flatMap_append]

/-! ### The decode passes on the escape image -/

/-- One decode pass transforms a token stream tokenwise: a token equal to
the pattern becomes the replacement, and a token blocked at every offset
passes through unchanged. -/
theorem single_block (c : Char) (pat : List Char) (q q2 : Char) (qs : List Char)
    (hpat : pat = q :: q2 :: qs) (h : c ≠ q) :
    startsWithCh pat (List.drop 0 [c]) = false ∧ startsWithCh (List.drop 0 [c]) pat = false := by
  subst hpat
  simp only [List.drop_zero]
  constructor
  · show (if q = c then startsWithCh (q2 :: qs) [] else false) = false
    rw [if_neg (fun hh => h hh.symm)]
  · show (if c = q then startsWithCh [] (q2 :: qs) else false) = false
    rw [if_neg h]

theorem decode_stage (pat rep : List Char) (hp : pat ≠ []) (f g : Char → List Char)
    (hcase : ∀ c, (f c = pat ∧ g c = rep) ∨
      (f c = g c ∧ ∀ k, k < (f c).length →
        startsWithCh pat ((f c).drop k) = false ∧ startsWithCh ((f c).drop k) pat = false)) :
    ∀ t : List Char, replaceAllCh pat rep (t.flatMap f) = t.flatMap g := by
  intro t
  induction t with
  | nil => simp [replaceAllCh_nil]
  | cons c cs ih =>
    rw [List.flatMap_cons, List.flatMap_cons]
    rcases hcase c with ⟨hf, hg⟩ | ⟨hfg, hb⟩
    · rw [hf, hg, replaceAllCh_front pat rep hp, ih]
    · rw [replaceAllCh_skip_block pat rep hp (f c) _ hb, ih, hfg]

theorem decode_pass1 (t : List Char) :
    replaceAllCh (tl "&lt;") ['<'] (t.flatMap escChar) = t.flatMap esc1 := by
  refine decode_stage _ _ (by decide) _ _ (fun c => ?_) t
  by_cases h1 : c = '&'
  · subst h1; right; exact ⟨by decide, by decide⟩
  by_cases h2 : c = '<'
  · subst h2; left; exact ⟨by decide, by decide⟩
  by_cases h3 : c = '>'
  · subst h3; right; exact ⟨by decide, by decide⟩
  by_cases h4 : c = '"'
  · subst h4; right; exact ⟨by decide, by decide⟩
  by_cases h5 : c = apos
  · subst h5; right; exact ⟨by decide, by decide⟩
  right
  have hf : escChar c = [c] := by simp [escChar, h1, h2, h3, h4, h5]
  refine ⟨by simp [hf, esc1, h1, h3, h4, h5], ?_⟩
  rw [hf]
  intro k hk
  have hk0 : k = 0 := by simpa using hk
  subst hk0
  exact single_block c (tl "&lt;") '&' 'l' (tl "t;") (by decide) h1

theorem decode_pass2 (t : List Char) :
    replaceAllCh (tl "&gt;") ['>'] (t.flatMap esc1) = t.flatMap esc2 := by
  refine decode_stage _ _ (by decide) _ _ (fun c => ?_) t
  by_cases h1 : c = '&'
  · subst h1; right; exact ⟨by decide, by decide⟩
  by_cases h3 : c = '>'
  · subst h3; left; exact ⟨by decide, by decide⟩
  by_cases h4 : c = '"'
  · subst h4; right; exact ⟨by decide, by decide⟩
  by_cases h5 : c = apos
  · subst h5; right; exact ⟨by decide, by decide⟩
  right
  have hf : esc1 c = [c] := by simp [esc1, h1, h3, h4, h5]
  refine ⟨by simp [hf, esc2, h1, h4, h5], ?_⟩
  rw [hf]
  intro k hk
  have hk0 : k = 0 := by simpa using hk
  subst hk0
  exact single_block c (tl "&gt;") '&' 'g' (tl "t;") (by decide) h1

theorem decode_pass3 (t : List Char) :
    replaceAllCh (tl "&quot;") ['"'] (t.flatMap esc2) = t.flatMap esc3 := by
  refine decode_stage _ _ (by decide) _ _ (fun c => ?_) t
  by_cases h1 : c = '&'
  · subst h1; right; exact ⟨by decide, by decide⟩
  by_cases h4 : c = '"'
  · subst h4; left; exact ⟨by decide, by decide⟩
  by_cases h5 : c = apos
  · subst h5; right; exact ⟨by decide, by decide⟩
  right
  have hf : esc2 c = [c] := by simp [esc2, h1, h4, h5]
  refine ⟨by simp [hf, esc3, h1, h5], ?_⟩
  rw [hf]
  intro k hk
  have hk0 : k = 0 := by simpa using hk
  subst hk0
  exact single_block c (tl "&quot;") '&' 'q' (tl "uot;") (by decide) h1

theorem decode_pass4 (t : List Char) :
    replaceAllCh (tl "&#039;") [apos] (t.flatMap esc3) = t.flatMap esc4 := by
  refine decode_stage _ _ (by decide) _ _ (fun c => ?_) t
  by_cases h1 : c = '&'
  · subst h1; right; exact ⟨by decide, by decide⟩
  by_cases h5 : c = apos
  · subst h5; left; exact ⟨by decide, by decide⟩
  right
  have hf : esc3 c = [c] := by simp [esc3, h1, h5]
  refine ⟨by simp [hf, esc4, h1], ?_⟩
  rw [hf]
  intro k hk
  have hk0 : k = 0 := by simpa using hk
  subst hk0
  exact single_block c (tl "&#039;") '&' '#' (tl "039;") (by decide) h1

theorem decode_pass5 (t : List Char) :
    replaceAllCh (tl "&amp;") ['&'] (t.flatMap esc4) = t.flatMap (fun c => [c]) := by
  refine decode_stage _ _ (by decide) _ _ (fun c => ?_) t
  by_cases h1 : c = '&'
  · subst h1; left; exact ⟨by decide, by decide⟩
  right
  have hf : esc4 c = [c] := by simp [esc4, h1]
  refine ⟨hf, ?_⟩
  rw [hf]
  intro k hk
  have hk0 : k = 0 := by simpa using hk
  subst hk0
  exact single_block c (tl "&amp;") '&' 'a' (tl "mp;") (by decide) h1

theorem flatMap_singleton_id (t : List Char) : t.flatMap (fun c => [c]) = t := by
  induction t with
  | nil => rfl
  | cons c cs ih => simp [List.flatMap_cons, ih]

/-- The decoder inverts the encoder's entity escaping. -/
theorem decodeHTML_escapeHtml (t : List Char) : decodeHTML (escapeHtml t) = t := by
  rw [escapeHtml_flatMap]
  unfold decodeHTML
  rw [decode_pass1, decode_pass2, decode_pass3, decode_pass4, decode_pass5,
    flatMap_singleton_id]

/-! ### Line-break replacement on encoder output -/

theorem replaceBr_nil : replaceBr [] = [] := rfl

theorem replaceBr_cons_none (c : Char) (s : List Char) (h : brLen (c :: s) = none) :
    replaceBr (c :: s) = c :: replaceBr s := by
  show replaceBrF (s.length + 1) (c :: s) = _
  simp only [replaceBrF, h]
  rfl

theorem replaceBr_cons_some (c : Char) (s : List Char) (n : Nat) (h : brLen (c :: s) = some n) :
    replaceBr (c :: s) = '\n' :: replaceBr ((c :: s).drop n) := by
  have hn := brLen_ge _ _ h
  show replaceBrF (s.length + 1) (c :: s) = _
  simp only [replaceBrF, h]
  congr 1
  exact replaceBrF_congr s.length ((c :: s).drop n).length _
    (by simp [List.length_drop]; omega) (le_refl _)

theorem brLen_not_lt (c : Char) (s : List Char) (h : c ≠ '<') : brLen (c :: s) = none := by
  rcases s with _ | ⟨b, s⟩
  · rfl
  rcases s with _ | ⟨d, s⟩
  · rfl
  show brLenCore c b d s = none
  unfold brLenCore
  rw [if_neg (by intro hcon; exact h hcon.1)]

theorem brLen_lt_not_b (b : Char) (s : List Char) (h : b.toLower ≠ 'b') :
    brLen ('<' :: b :: s) = none := by
  rcases s with _ | ⟨d, s⟩
  · rfl
  show brLenCore '<' b d s = none
  unfold brLenCore
  rw [if_neg (by intro hcon; exact h hcon.2.1)]

theorem brLen_br_token (x : List Char) : brLen (tl "<br/>" ++ x) = some 5 := by
  show brLenCore '<' 'b' 'r' ('/' :: '>' :: x) = some 5
  unfold brLenCore
  rw [if_pos (by decide)]
  have ht : ('/' :: '>' :: x).takeWhile isSpaceJS = [] := by
    rw [List.takeWhile_cons, if_neg (by decide)]
  rw [ht]
  rfl

theorem replaceBr_token (a : List Char) (ha : ∀ c ∈ a, c ≠ '<') (x : List Char) :
    replaceBr (a ++ x) = a ++ replaceBr x := by
  induction a with
  | nil => simp
  | cons c cs ih =>
    rw [List.cons_append, replaceBr_cons_none _ _ (brLen_not_lt c _ (ha c (by simp)))]
    rw [ih (fun d hd => ha d (by simp [hd]))]
    rfl

theorem replaceBr_not_b_head (b : Char) (u z : List Char) (hb : b.toLower ≠ 'b')
    (hbne : b ≠ '<') (hu : ∀ c ∈ u, c ≠ '<') :
    replaceBr ('<' :: b :: (u ++ z)) = '<' :: b :: (u ++ replaceBr z) := by
  rw [replaceBr_cons_none '<' (b :: (u ++ z)) (brLen_lt_not_b b (u ++ z) hb)]
  rw [replaceBr_cons_none b (u ++ z) (brLen_not_lt b (u ++ z) hbne)]
  rw [replaceBr_token u hu z]

theorem brEncode_escape (t : List Char) : brEncode (escapeHtml t) = t.flatMap escBr := by
  unfold brEncode
  rw [escapeHtml_flatMap, replaceAllCh_single, List.flatMap_assoc]
  congr 1
  funext c
  by_cases h : c = '\n'
  · subst h; decide
  by_cases h1 : c = '&'
  · subst h1; decide
  by_cases h2 : c = '<'
  · subst h2; decide
  by_cases h3 : c = '>'
  · subst h3; decide
  by_cases h4 : c = '"'
  · subst h4; decide
  by_cases h5 : c = apos
  · subst h5; decide
  simp [escChar, escBr, h, h1, h2, h3, h4, h5]

theorem replaceBr_escBr (t x : List Char) :
    replaceBr (t.flatMap escBr ++ x) = escapeHtml t ++ replaceBr x := by
  rw [escapeHtml_flatMap]
  induction t with
  | nil => simp
  | cons c cs ih =>
    rw [List.flatMap_cons, List.flatMap_cons, List.append_assoc, List.append_assoc]
    by_cases h : c = '\n'
    · subst h
      have hbr : escBr '\n' = tl "<br/>" := by decide
      have hch : escChar '\n' = ['\n'] := by decide
      rw [hbr, hch]
      rw [show tl "<br/>" ++ (List.flatMap cs escBr ++ x) =
        '<' :: ('b' :: 'r' :: '/' :: '>' :: (List.flatMap cs escBr ++ x)) from rfl]
      rw [replaceBr_cons_some '<' ('b' :: 'r' :: '/' :: '>' :: (List.flatMap cs escBr ++ x)) 5
        (show brLen ('<' :: 'b' :: 'r' :: '/' :: '>' :: (List.flatMap cs escBr ++ x)) = some 5 from
          brLen_br_token (List.flatMap cs escBr ++ x))]
      simp only [List.drop_succ_cons, List.drop_zero]
      rw [ih]
      rfl
    · have hbr : escBr c = escChar c := by simp [escBr, h]
      rw [hbr, replaceBr_token (escChar c) (fun d hd => (escChar_safe c d hd).1) _, ih]

theorem replaceBr_block (r : StyleRun) (z : List Char)
    (hS : ∀ c ∈ buildStyleString r, c ≠ '<') :
    replaceBr (encodeRun r ++ z) = decodedBlock r ++ replaceBr z := by
  have e1 : tl "<span style=\"" = '<' :: 's' :: tl "pan style=\"" := rfl
  have e2 : tl "</span>" = '<' :: '/' :: tl "span>" := rfl
  have key : encodeRun r ++ z =
      '<' :: 's' :: ((tl "pan style=\"" ++ (buildStyleString r ++ tl "\">")) ++
        (brEncode (escapeHtml r.text) ++ ('<' :: '/' :: (tl "span>" ++ z)))) := by
    unfold encodeRun
    rw [e1, e2]
    simp [List.append_assoc]
  rw [key]
  have hu : ∀ c ∈ tl "pan style=\"" ++ (buildStyleString r ++ tl "\">"), c ≠ '<' := by
    intro c hc
    simp only [List.mem_append] at hc
    rcases hc with hc | hc | hc
    · revert hc
      have : ∀ c ∈ tl "pan style=\"", c ≠ '<' := by decide
      exact this c
    · exact hS c hc
    · revert hc
      have : ∀ c ∈ tl "\">", c ≠ '<' := by decide
      exact this c
  rw [replaceBr_not_b_head 's' _ _ (by decide) (by decide) hu]
  rw [brEncode_escape, replaceBr_escBr]
  rw [replaceBr_not_b_head '/' (tl "span>") z (by decide) (by decide) (by decide)]
  unfold decodedBlock
  rw [e1, e2]
  simp [List.append_assoc]

theorem replaceBr_encodeRuns (runs : List StyleRun)
    (h : ∀ r ∈ runs, ∀ c ∈ buildStyleString r, c ≠ '<') :
    replaceBr (encodeRuns runs) = (runs.map decodedBlock).flatten := by
  induction runs with
  | nil => rfl
  | cons r rs ih =>
    have hcons : encodeRuns (r :: rs) = encodeRun r ++ encodeRuns rs := by
      simp [encodeRuns]
    rw [hcons, replaceBr_block r _ (h r (by simp))]
    rw [ih (fun r' hr' c hc => h r' (by simp [hr']) c hc)]
    simp

/-! ### Safety of the emitted style string -/

theorem digitChar_safe (m : Nat) (h : m < 10) : safeFamilyChar (digitChar m) := by
  interval_cases m <;> decide

theorem natDigitsF_safe :
    ∀ fuel n acc, (∀ c ∈ acc, safeFamilyChar c) →
      ∀ c ∈ natDigitsF fuel n acc, safeFamilyChar c := by
  intro fuel
  induction fuel with
  | zero => intro n acc hacc c hc; exact hacc c hc
  | succ f ih =>
    intro n acc hacc c hc
    simp only [natDigitsF] at hc
    by_cases hn : n < 10
    · rw [if_pos hn] at hc
      rcases List.mem_cons.mp hc with rfl | hc'
      · exact digitChar_safe n hn
      · exact hacc c hc'
    · rw [if_neg hn] at hc
      refine ih (n / 10) _ (fun d hd => ?_) c hc
      rcases List.mem_cons.mp hd with rfl | hd'
      · exact digitChar_safe _ (Nat.mod_lt n (by norm_num))
      · exact hacc d hd'

theorem natToCh_safe (n : Nat) : ∀ c ∈ natToCh n, safeFamilyChar c :=
  natDigitsF_safe (n + 1) n [] (by simp)

theorem fracDigits_safe :
    ∀ fuel r d, r < d → ∀ c ∈ fracDigits fuel r d, safeFamilyChar c := by
  intro fuel
  induction fuel with
  | zero => intro r d _ c hc; simp [fracDigits] at hc
  | succ f ih =>
    intro r d hrd c hc
    have hd0 : 0 < d := lt_of_le_of_lt (Nat.zero_le r) hrd
    simp only [fracDigits] at hc
    by_cases hr : r = 0
    · rw [if_pos hr] at hc; simp at hc
    · rw [if_neg hr] at hc
      rcases List.mem_cons.mp hc with rfl | hc'
      · exact digitChar_safe _ (Nat.div_lt_of_lt_mul (by omega))
      · exact ih _ d (Nat.mod_lt _ hd0) c hc'

theorem numToString_safe (q : ℚ) : ∀ c ∈ numToString q, safeFamilyChar c := by
  intro c hc
  unfold numToString at hc
  simp only [List.mem_append] at hc
  rcases hc with (hc | hc) | hc
  · by_cases hq : q < 0
    · rw [if_pos hq] at hc
      simp at hc
      subst hc
      decide
    · rw [if_neg hq] at hc
      simp at hc
  · exact natToCh_safe _ c hc
  · by_cases hfr : fracDigits 30 (q.num.natAbs % q.den) q.den = []
    · rw [if_pos hfr] at hc; simp at hc
    · rw [if_neg hfr] at hc
      rcases List.mem_cons.mp hc with rfl | hc'
      · decide
      · exact fracDigits_safe 30 _ _ (Nat.mod_lt _ q.den_pos) c hc'

theorem joinSemi_cons_cons (p q : List Char) (ps : List (List Char)) :
    joinSemi (p :: q :: ps) = p ++ ';' :: joinSemi (q :: ps) := rfl

theorem joinSemi_mem (L : List (List Char)) (c : Char) (hc : c ∈ joinSemi L) :
    c = ';' ∨ ∃ l ∈ L, c ∈ l := by
  induction L with
  | nil => simp [joinSemi] at hc
  | cons p ps ih =>
    cases ps with
    | nil =>
      right
      exact ⟨p, by simp, by simpa [joinSemi] using hc⟩
    | cons q qs =>
      rw [joinSemi_cons_cons] at hc
      rcases List.mem_append.mp hc with hc | hc
      · right; exact ⟨p, by simp, hc⟩
      · rcases List.mem_cons.mp hc with rfl | hc'
        · left; rfl
        · rcases ih hc' with h | ⟨l, hl, hcl⟩
          · left; exact h
          · right; exact ⟨l, List.mem_cons_of_mem p hl, hcl⟩

theorem joinSemi_safe (L : List (List Char))
    (h : ∀ l ∈ L, ∀ c ∈ l, safeFamilyChar c) :
    ∀ c ∈ joinSemi L, safeFamilyChar c := by
  intro c hc
  rcases joinSemi_mem L c hc with rfl | ⟨l, hl, hcl⟩
  · decide
  · exact h l hl c hcl

theorem append_safe {a b : List Char} (ha : ∀ c ∈ a, safeFamilyChar c)
    (hb : ∀ c ∈ b, safeFamilyChar c) : ∀ c ∈ a ++ b, safeFamilyChar c := by
  intro c hc
  rcases List.mem_append.mp hc with h | h
  exacts [ha c h, hb c h]

theorem unitSuffix_safe (u : FUnit) : ∀ c ∈ unitSuffix u, safeFamilyChar c := by
  cases u <;> decide

theorem decorationStr_safe (d : FDecoration) : ∀ c ∈ decorationStr d, safeFamilyChar c := by
  cases d <;> decide

theorem buildStyleString_safe (r : StyleRun)
    (hf : ∀ c ∈ r.font.family, safeFamilyChar c) :
    ∀ c ∈ buildStyleString r, safeFamilyChar c := by
  unfold buildStyleString
  refine joinSemi_safe _ ?_
  intro l hl
  simp only [List.mem_append] at hl
  rcases hl with ((((((hl | hl) | hl) | hl) | hl) | hl) | hl)
  · rcases List.mem_cons.mp hl with rfl | hl'
    · exact append_safe (by decide) hf
    · rcases List.mem_cons.mp hl' with rfl | hl''
      · exact append_safe (by decide) (natToCh_safe _)
      · simp at hl''
  · split at hl
    · rcases List.mem_cons.mp hl with rfl | hl'
      · decide
      · simp at hl'
    · simp at hl
  · rcases List.mem_cons.mp hl with rfl | hl'
    · exact append_safe (append_safe (by decide) (numToString_safe _)) (by decide)
    · simp at hl'
  · split at hl
    · rcases List.mem_cons.mp hl with rfl | hl'
      · exact append_safe (append_safe (append_safe (append_safe (append_safe
          (append_safe (by decide) (natToCh_safe _)) (by decide)) (natToCh_safe _))
          (by decide)) (natToCh_safe _)) (by decide)
      · simp at hl'
    · simp at hl
  · split at hl
    · rcases List.mem_cons.mp hl with rfl | hl'
      · exact append_safe (by decide) (decorationStr_safe _)
      · simp at hl'
    · simp at hl
  · split at hl
    · rcases List.mem_cons.mp hl with rfl | hl'
      · exact append_safe (append_safe (by decide) (numToString_safe _)) (unitSuffix_safe _)
      · simp at hl'
    · simp at hl
  · split at hl
    · rcases List.mem_cons.mp hl with rfl | hl'
      · exact append_safe (append_safe (by decide) (numToString_safe _)) (unitSuffix_safe _)
      · simp at hl'
    · rcases List.mem_cons.mp hl with rfl | hl'
      · exact append_safe (append_safe (by decide) (numToString_safe _)) (by decide)
      · simp at hl'
    · simp at hl

theorem joinSemi_head_ne_nil (p : List Char) (ps : List (List Char)) (hp : p ≠ []) :
    joinSemi (p :: ps) ≠ [] := by
  cases ps with
  | nil => simpa [joinSemi] using hp
  | cons q qs =>
    rw [joinSemi_cons_cons]
    intro hcon
    exact hp (List.append_eq_nil.mp hcon).1

theorem buildStyleString_ne_nil (r : StyleRun) : buildStyleString r ≠ [] := by
  unfold buildStyleString
  exact joinSemi_head_ne_nil (tl "font-family:" ++ r.font.family) _
    (by
      intro h
      exact absurd (List.append_eq_nil.mp h).1 (by decide))

/-! ### Fuel congruence and step equations for the two scanners -/

theorem parseRecF_congr :
    ∀ f g s base cur, s.length ≤ f → s.length ≤ g →
      parseRecF f s base cur = parseRecF g s base cur := by
  intro f
  induction f with
  | zero =>
    intro g s base cur hf _
    have hs : s = [] := List.eq_nil_of_length_eq_zero (Nat.le_zero.mp hf)
    subst hs
    cases g <;> simp [parseRecF]
  | succ f ih =>
    intro g s base cur hf hg
    cases s with
    | nil => cases g <;> simp [parseRecF]
    | cons c cs =>
      cases g with
      | zero => simp at hg
      | succ g =>
        have hf' : cs.length ≤ f := by simp at hf; omega
        have hg' : cs.length ≤ g := by simp at hg; omega
        simp only [parseRecF]
        by_cases hem : startsWithCh (tl "<em>") (c :: cs) = true
        · rw [if_pos hem, if_pos hem]
          rcases hio : indexOfFrom (tl "</em>") (c :: cs) 4 with _ | ci
          · simp only []
            rw [ih g cs base [c] hf' hg']
          · simp only []
            congr 2
            refine ih g _ base [] ?_ ?_ <;> simp [List.length_drop] <;> omega
        · rw [if_neg hem, if_neg hem]
          exact ih g cs base (cur ++ [c]) hf' hg'

theorem scanTopF_congr :
    ∀ f g s cur, s.length ≤ f → s.length ≤ g →
      scanTopF f s cur = scanTopF g s cur := by
  intro f
  induction f with
  | zero =>
    intro g s cur hf _
    have hs : s = [] := List.eq_nil_of_length_eq_zero (Nat.le_zero.mp hf)
    subst hs
    cases g <;> simp [scanTopF]
  | succ f ih =>
    intro g s cur hf hg
    cases s with
    | nil => cases g <;> simp [scanTopF]
    | cons c cs =>
      cases g with
      | zero => simp at hg
      | succ g =>
        have hf' : cs.length ≤ f := by simp at hf; omega
        have hg' : cs.length ≤ g := by simp at hg; omega
        simp only [scanTopF]
        by_cases hsp : startsWithCh (tl "<span") (c :: cs) = true
        · rw [if_pos hsp, if_pos hsp]
          rcases hm : findSpanMatch (c :: cs) with _ | ⟨style, mlen⟩
          · simp only []
            rw [ih g cs [c] hf' hg']
          · simp only []
            rcases hio : indexOfFrom (tl "</span>") (c :: cs) mlen with _ | ci
            · simp only []
              rw [ih g cs [c] hf' hg']
            · simp only []
              have hcg := ih g ((c :: cs).drop (ci + 7)) []
                (by simp [List.length_drop]; omega) (by simp [List.length_drop]; omega)
              rw [hcg]
        · rw [if_neg hsp, if_neg hsp]
          by_cases hem : startsWithCh (tl "<em>") (c :: cs) = true
          · rw [if_pos hem, if_pos hem]
            rcases hio : indexOfFrom (tl "</em>") (c :: cs) 4 with _ | ci
            · simp only []
              rw [ih g cs [c] hf' hg']
            · simp only []
              have hcg := ih g ((c :: cs).drop (ci + 5)) []
                (by simp [List.length_drop]; omega) (by simp [List.length_drop]; omega)
              rw [hcg]
          · rw [if_neg hem, if_neg hem]
            exact ih g cs (cur ++ [c]) hf' hg'

theorem parseRec_nil (base : HStyles) (cur : List Char) :
    parseRec [] base cur = flushRec base cur := rfl

theorem parseRec_plain (c : Char) (s : List Char) (base : HStyles) (cur : List Char)
    (h : ¬ startsWithCh (tl "<em>") (c :: s) = true) :
    parseRec (c :: s) base cur = parseRec s base (cur ++ [c]) := by
  show parseRecF (s.length + 1) (c :: s) base cur = _
  simp only [parseRecF, if_neg h]
  rfl

theorem scanTop_nil (cur : List Char) : scanTop [] cur = flushTop cur := rfl

theorem scanTop_plain (c : Char) (s : List Char) (cur : List Char)
    (hsp : ¬ startsWithCh (tl "<span") (c :: s) = true)
    (hem : ¬ startsWithCh (tl "<em>") (c :: s) = true) :
    scanTop (c :: s) cur = scanTop s (cur ++ [c]) := by
  show scanTopF (s.length + 1) (c :: s) cur = _
  simp only [scanTopF, if_neg hsp, if_neg hem]
  rfl

theorem scanTop_span_close (c : Char) (s : List Char) (cur : List Char)
    (style : List Char) (mlen ci : Nat)
    (hsp : startsWithCh (tl "<span") (c :: s) = true)
    (hm : findSpanMatch (c :: s) = some (style, mlen))
    (hci : indexOfFrom (tl "</span>") (c :: s) mlen = some ci) :
    scanTop (c :: s) cur = flushTop cur ++
      (parseRec (((c :: s).drop mlen).take (ci - mlen)) (parseStyleString style) [] ++
        scanTop ((c :: s).drop (ci + 7)) []) := by
  show scanTopF (s.length + 1) (c :: s) cur = _
  simp only [scanTopF, if_pos hsp, hm, hci]
  have hcg := scanTopF_congr s.length ((c :: s).drop (ci + 7)).length ((c :: s).drop (ci + 7)) []
    (by simp [List.length_drop]; try omega) (le_refl _)
  rw [hcg]
  rfl

theorem scanTop_span_noclose (c : Char) (s : List Char) (cur : List Char)
    (style : List Char) (mlen : Nat)
    (hsp : startsWithCh (tl "<span") (c :: s) = true)
    (hm : findSpanMatch (c :: s) = some (style, mlen))
    (hci : indexOfFrom (tl "</span>") (c :: s) mlen = none) :
    scanTop (c :: s) cur = flushTop cur ++ scanTop s [c] := by
  show scanTopF (s.length + 1) (c :: s) cur = _
  simp only [scanTopF, if_pos hsp, hm, hci]
  rfl

theorem scanTop_span_nomatch (c : Char) (s : List Char) (cur : List Char)
    (hsp : startsWithCh (tl "<span") (c :: s) = true)
    (hm : findSpanMatch (c :: s) = none) :
    scanTop (c :: s) cur = flushTop cur ++ scanTop s [c] := by
  show scanTopF (s.length + 1) (c :: s) cur = _
  simp only [scanTopF, if_pos hsp, hm]
  rfl

theorem scanTop_em_close (c : Char) (s : List Char) (cur : List Char) (ci : Nat)
    (hsp : ¬ startsWithCh (tl "<span") (c :: s) = true)
    (hem : startsWithCh (tl "<em>") (c :: s) = true)
    (hci : indexOfFrom (tl "</em>") (c :: s) 4 = some ci) :
    scanTop (c :: s) cur = flushTop cur ++
      (⟨decodeHTML (((c :: s).drop 4).take (ci - 4)), setItalic emptyStyles⟩ ::
        scanTop ((c :: s).drop (ci + 5)) []) := by
  show scanTopF (s.length + 1) (c :: s) cur = _
  simp only [scanTopF, if_neg hsp, if_pos hem, hci]
  have hcg := scanTopF_congr s.length ((c :: s).drop (ci + 5)).length ((c :: s).drop (ci + 5)) []
    (by simp [List.length_drop]; try omega) (le_refl _)
  rw [hcg]
  rfl

theorem scanTop_em_noclose (c : Char) (s : List Char) (cur : List Char)
    (hsp : ¬ startsWithCh (tl "<span") (c :: s) = true)
    (hem : startsWithCh (tl "<em>") (c :: s) = true)
    (hci : indexOfFrom (tl "</em>") (c :: s) 4 = none) :
    scanTop (c :: s) cur = flushTop cur ++ scanTop s [c] := by
  show scanTopF (s.length + 1) (c :: s) cur = _
  simp only [scanTopF, if_neg hsp, if_pos hem, hci]
  rfl

/-! ### Substring search, literal scans, and the block lemma -/

theorem takeWhile_append_stop {p : Char → Bool} (a : List Char) (b : Char) (x : List Char)
    (ha : ∀ c ∈ a, p c = true) (hb : p b = false) :
    (a ++ b :: x).takeWhile p = a := by
  induction a with
  | nil => simp [List.takeWhile_cons, hb]
  | cons c cs ih =>
    rw [List.cons_append, List.takeWhile_cons, if_pos (ha c (by simp))]
    rw [ih (fun d hd => ha d (by simp [hd]))]

theorem matchSpanOpenAt_block (σ w : List Char) (hne : σ ≠ []) (hq : ∀ c ∈ σ, c ≠ '"') :
    matchSpanOpenAt (tl "<span style=\"" ++ (σ ++ ('"' :: '>' :: w))) = some (σ, 15 + σ.length) := by
  have h1 : startsWithCh (tl "<span") (tl "<span style=\"" ++ (σ ++ '"' :: '>' :: w)) = true :=
    startsWith_self_append (tl "<span") (tl " style=\"" ++ (σ ++ '"' :: '>' :: w))
  have h5 : List.drop 5 (tl "<span style=\"" ++ (σ ++ '"' :: '>' :: w)) =
      ' ' :: (tl "style=\"" ++ (σ ++ '"' :: '>' :: w)) := rfl
  have hsp : List.takeWhile isSpaceJS (' ' :: (tl "style=\"" ++ (σ ++ '"' :: '>' :: w))) = [' '] := by
    rw [List.takeWhile_cons, if_pos (by decide)]
    rw [show tl "style=\"" ++ (σ ++ '"' :: '>' :: w) =
      's' :: (tl "tyle=\"" ++ (σ ++ '"' :: '>' :: w)) from rfl]
    rw [List.takeWhile_cons, if_neg (by decide)]
  have h2 : startsWithCh (tl "style=\"") (tl "style=\"" ++ (σ ++ '"' :: '>' :: w)) = true :=
    startsWith_self_append _ _
  have hd7 : List.drop 7 (tl "style=\"" ++ (σ ++ '"' :: '>' :: w)) = σ ++ '"' :: '>' :: w := by
    rw [show (7 : Nat) = (tl "style=\"").length from rfl]
    exact List.drop_left _ _
  have htw : List.takeWhile (fun c => c != '"') (σ ++ '"' :: '>' :: w) = σ :=
    takeWhile_append_stop σ '"' ('>' :: w) (fun c hc => by simpa using hq c hc) (by decide)
  have hdσ : List.drop σ.length (σ ++ '"' :: '>' :: w) = '"' :: '>' :: w := List.drop_left _ _
  have h3 : startsWithCh (tl "\">") ('"' :: '>' :: w) = true :=
    startsWith_self_append (tl "\">") w
  have hd1 : List.drop ([' '] : List Char).length
      (' ' :: (tl "style=\"" ++ (σ ++ '"' :: '>' :: w))) =
      tl "style=\"" ++ (σ ++ '"' :: '>' :: w) := rfl
  simp only [matchSpanOpenAt, h1, h5, hsp, hd1, h2, hd7, htw, hdσ, h3, if_true]
  rw [if_neg (by decide : ¬ ([' '] : List Char) = [])]
  rw [if_neg hne]
  simp
  omega


theorem findSpanMatch_block (σ w : List Char) (hne : σ ≠ []) (hq : ∀ c ∈ σ, c ≠ '"') :
    findSpanMatch (tl "<span style=\"" ++ (σ ++ '"' :: '>' :: w)) = some (σ, 15 + σ.length) := by
  rw [show tl "<span style=\"" ++ (σ ++ '"' :: '>' :: w) =
    '<' :: (tl "span style=\"" ++ (σ ++ '"' :: '>' :: w)) from rfl]
  simp only [findSpanMatch]
  have hm' : matchSpanOpenAt ('<' :: (tl "span style=\"" ++ (σ ++ '"' :: '>' :: w))) =
      some (σ, 15 + σ.length) := matchSpanOpenAt_block σ w hne hq
  rw [hm']

theorem startsWith_head_ne (q c : Char) (qs s : List Char) (h : q ≠ c) :
    startsWithCh (q :: qs) (c :: s) = false := by
  show (if q = c then startsWithCh qs s else false) = false
  rw [if_neg h]

theorem indexOfSub_none_of_no_lt (p2 : List Char) :
    ∀ a : List Char, (∀ c ∈ a, c ≠ '<') → indexOfSub ('<' :: p2) a = none := by
  intro a
  induction a with
  | nil => intro _; rfl
  | cons b bs ih =>
    intro ha
    simp only [indexOfSub]
    rw [startsWith_head_ne '<' b _ _ (Ne.symm (ha b (by simp)))]
    simp only [Bool.false_eq_true, if_false]
    rw [ih (fun d hd => ha d (by simp [hd]))]
    rfl

theorem indexOfSub_first (p2 : List Char) :
    ∀ (a x : List Char), (∀ c ∈ a, c ≠ '<') →
      indexOfSub ('<' :: p2) (a ++ (('<' :: p2) ++ x)) = some a.length := by
  intro a
  induction a with
  | nil =>
    intro x _
    rw [List.nil_append]
    rw [show ('<' :: p2) ++ x = '<' :: (p2 ++ x) from rfl]
    simp only [indexOfSub]
    rw [if_pos (show startsWithCh ('<' :: p2) ('<' :: (p2 ++ x)) = true from
      startsWith_self_append ('<' :: p2) x)]
    rfl
  | cons b bs ih =>
    intro x ha
    rw [List.cons_append]
    simp only [indexOfSub]
    rw [startsWith_head_ne '<' b _ _ (Ne.symm (ha b (by simp)))]
    simp only [Bool.false_eq_true, if_false]
    rw [ih x (fun d hd => ha d (by simp [hd]))]
    rfl

theorem parseRec_no_lt (t : List Char) (ht : ∀ c ∈ t, c ≠ '<') :
    ∀ base cur, parseRec t base cur = flushRec base (cur ++ t) := by
  induction t with
  | nil => intro base cur; rw [parseRec_nil]; simp
  | cons c cs ih =>
    intro base cur
    have hnem : ¬ startsWithCh (tl "<em>") (c :: cs) = true := by
      rw [show tl "<em>" = '<' :: tl "em>" from rfl,
        startsWith_head_ne '<' c _ _ (Ne.symm (ht c (by simp)))]
      simp
    rw [parseRec_plain c cs base cur hnem,
      ih (fun d hd => ht d (by simp [hd])) base (cur ++ [c])]
    simp

theorem scanTop_no_lt (t : List Char) (ht : ∀ c ∈ t, c ≠ '<') :
    ∀ cur, scanTop t cur = flushTop (cur ++ t) := by
  induction t with
  | nil => intro cur; rw [scanTop_nil]; simp
  | cons c cs ih =>
    intro cur
    have hnsp : ¬ startsWithCh (tl "<span") (c :: cs) = true := by
      rw [show tl "<span" = '<' :: tl "span" from rfl,
        startsWith_head_ne '<' c _ _ (Ne.symm (ht c (by simp)))]
      simp
    have hnem : ¬ startsWithCh (tl "<em>") (c :: cs) = true := by
      rw [show tl "<em>" = '<' :: tl "em>" from rfl,
        startsWith_head_ne '<' c _ _ (Ne.symm (ht c (by simp)))]
      simp
    rw [scanTop_plain c cs cur hnsp hnem, ih (fun d hd => ht d (by simp [hd])) (cur ++ [c])]
    simp

theorem decodedBlock_shape (r : StyleRun) (rest : List Char) :
    decodedBlock r ++ rest =
      '<' :: (tl "span style=\"" ++ (buildStyleString r ++ '"' :: '>' ::
        (escapeHtml r.text ++ ('<' :: '/' :: (tl "span>" ++ rest))))) := by
  unfold decodedBlock
  rw [show tl "<span style=\"" = '<' :: tl "span style=\"" from rfl,
    show tl "\">" = '"' :: '>' :: ([] : List Char) from rfl,
    show tl "</span>" = '<' :: '/' :: tl "span>" from rfl]
  simp [List.append_assoc]

set_option maxHeartbeats 1000000 in
theorem scanTop_block (r : StyleRun) (rest : List Char) (hwf : wellFormedRun r) :
    scanTop (decodedBlock r ++ rest) [] = resolveRun r :: scanTop rest [] := by
  have hfam := hwf.2
  have hSsafe := buildStyleString_safe r (fun c hc => hfam c hc)
  have hSne := buildStyleString_ne_nil r
  have hTsafe := escapeHtml_safe r.text
  have hTne := escapeHtml_ne_nil r.text hwf.1
  rw [decodedBlock_shape]
  -- abbreviations (syntactic): S, T, W
  have hsp : startsWithCh (tl "<span") ('<' :: (tl "span style=\"" ++ (buildStyleString r ++ '"' :: '>' ::
      (escapeHtml r.text ++ ('<' :: '/' :: (tl "span>" ++ rest)))))) = true :=
    startsWith_self_append (tl "<span") (tl " style=\"" ++ (buildStyleString r ++ '"' :: '>' ::
      (escapeHtml r.text ++ ('<' :: '/' :: (tl "span>" ++ rest)))))
  have hm : findSpanMatch ('<' :: (tl "span style=\"" ++ (buildStyleString r ++ '"' :: '>' ::
      (escapeHtml r.text ++ ('<' :: '/' :: (tl "span>" ++ rest)))))) =
      some (buildStyleString r, 15 + (buildStyleString r).length) :=
    findSpanMatch_block (buildStyleString r)
      (escapeHtml r.text ++ ('<' :: '/' :: (tl "span>" ++ rest))) hSne
      (fun c hc => (hSsafe c hc).1)
  have hshape2 : ('<' :: (tl "span style=\"" ++ (buildStyleString r ++ '"' :: '>' ::
      (escapeHtml r.text ++ ('<' :: '/' :: (tl "span>" ++ rest)))))) =
      (('<' :: tl "span style=\"") ++ buildStyleString r ++ ['"', '>']) ++
        (escapeHtml r.text ++ ('<' :: '/' :: (tl "span>" ++ rest))) := by
    simp [List.append_assoc]
  have hlen15 : (('<' :: tl "span style=\"") ++ buildStyleString r ++ ['"', '>']).length =
      15 + (buildStyleString r).length := by
    simp [List.length_append]
    have : (tl "span style=\"").length = 12 := by decide
    omega
  have hdropm : List.drop (15 + (buildStyleString r).length)
      ('<' :: (tl "span style=\"" ++ (buildStyleString r ++ '"' :: '>' ::
        (escapeHtml r.text ++ ('<' :: '/' :: (tl "span>" ++ rest)))))) =
      escapeHtml r.text ++ ('<' :: '/' :: (tl "span>" ++ rest)) := by
    rw [hshape2, ← hlen15, List.drop_left]
  have hidx : indexOfFrom (tl "</span>")
      ('<' :: (tl "span style=\"" ++ (buildStyleString r ++ '"' :: '>' ::
        (escapeHtml r.text ++ ('<' :: '/' :: (tl "span>" ++ rest))))))
      (15 + (buildStyleString r).length) =
      some ((escapeHtml r.text).length + (15 + (buildStyleString r).length)) := by
    unfold indexOfFrom
    rw [hdropm]
    have hfirst : indexOfSub (tl "</span>")
        (escapeHtml r.text ++ ('<' :: '/' :: (tl "span>" ++ rest))) =
        some (escapeHtml r.text).length :=
      indexOfSub_first (tl "/span>") (escapeHtml r.text) rest (fun c hc => (hTsafe c hc).1)
    rw [hfirst]
    rfl
  rw [scanTop_span_close '<' (tl "span style=\"" ++ (buildStyleString r ++ '"' :: '>' ::
      (escapeHtml r.text ++ ('<' :: '/' :: (tl "span>" ++ rest))))) []
    (buildStyleString r) (15 + (buildStyleString r).length)
    ((escapeHtml r.text).length + (15 + (buildStyleString r).length)) hsp hm hidx]
  -- compute the inner content
  have hinner : (('<' :: (tl "span style=\"" ++ (buildStyleString r ++ '"' :: '>' ::
      (escapeHtml r.text ++ ('<' :: '/' :: (tl "span>" ++ rest)))))).drop
        (15 + (buildStyleString r).length)).take
      ((escapeHtml r.text).length + (15 + (buildStyleString r).length) -
        (15 + (buildStyleString r).length)) = escapeHtml r.text := by
    rw [hdropm]
    have harith : (escapeHtml r.text).length + (15 + (buildStyleString r).length) -
        (15 + (buildStyleString r).length) = (escapeHtml r.text).length := by omega
    rw [harith]
    exact List.take_left _ _
  rw [hinner]
  -- the recursive-content parse
  rw [parseRec_no_lt (escapeHtml r.text) (fun c hc => (hTsafe c hc).1)
    (parseStyleString (buildStyleString r)) []]
  -- the continuation
  have hshape3 : ('<' :: (tl "span style=\"" ++ (buildStyleString r ++ '"' :: '>' ::
      (escapeHtml r.text ++ ('<' :: '/' :: (tl "span>" ++ rest)))))) =
      (('<' :: tl "span style=\"") ++ buildStyleString r ++ ['"', '>'] ++
        escapeHtml r.text ++ ('<' :: '/' :: tl "span>")) ++ rest := by
    simp [List.append_assoc]
  have hlenall : (('<' :: tl "span style=\"") ++ buildStyleString r ++ ['"', '>'] ++
      escapeHtml r.text ++ ('<' :: '/' :: tl "span>")).length =
      (escapeHtml r.text).length + (15 + (buildStyleString r).length) + 7 := by
    simp [List.length_append]
    have h1 : (tl "span style=\"").length = 12 := by decide
    have h2 : (tl "span>").length = 5 := by decide
    omega
  have hdropall : List.drop
      ((escapeHtml r.text).length + (15 + (buildStyleString r).length) + 7)
      ('<' :: (tl "span style=\"" ++ (buildStyleString r ++ '"' :: '>' ::
        (escapeHtml r.text ++ ('<' :: '/' :: (tl "span>" ++ rest)))))) = rest := by
    rw [hshape3, ← hlenall, List.drop_left]
  rw [hdropall]
  -- assemble
  have hflush : flushRec (parseStyleString (buildStyleString r))
      (([] : List Char) ++ escapeHtml r.text) =
      [⟨decodeHTML (escapeHtml r.text), parseStyleString (buildStyleString r)⟩] := by
    rw [List.nil_append]
    unfold flushRec
    rw [if_neg hTne]
  rw [hflush, decodeHTML_escapeHtml]
  rfl

theorem scanTop_blocks (runs : List StyleRun) (h : ∀ r ∈ runs, wellFormedRun r) :
    scanTop ((runs.map decodedBlock).flatten) [] = runs.map resolveRun := by
  induction runs with
  | nil => rfl
  | cons r rs ih =>
    rw [show ((r :: rs).map decodedBlock).flatten =
      decodedBlock r ++ (rs.map decodedBlock).flatten from by simp]
    rw [scanTop_block r _ (h r (by simp))]
    rw [ih (fun r' hr' => h r' (by simp [hr']))]
    rfl

theorem roundTrip_general (runs : List StyleRun) (h : ∀ r ∈ runs, wellFormedRun r) :
    parseHTML (encodeRuns runs) = runs.map resolveRun := by
  unfold parseHTML
  rw [replaceBr_encodeRuns runs
    (fun r hr c hc => ((buildStyleString_safe r (fun d hd => (h r hr).2 d hd)) c hc).2.1)]
  exact scanTop_blocks runs h

/-! ### Tag stripping on encoder output (the visible text) -/

theorem stripTags_nil : stripTags [] = [] := rfl

theorem stripTags_cons_not_lt (c : Char) (s : List Char) (h : c ≠ '<') :
    stripTags (c :: s) = c :: stripTags s := by
  show stripF (s.length + 1) (c :: s) = _
  simp only [stripF, if_neg h]
  rfl

theorem stripTags_cons_lt_some (s : List Char) (i : Nat)
    (hi : indexOfSub ['>'] s = some i) (hne : i ≠ 0) :
    stripTags ('<' :: s) = stripTags (s.drop (i + 1)) := by
  show stripF (s.length + 1) ('<' :: s) = _
  simp only [stripF, if_pos rfl, hi, if_neg hne]
  exact stripF_congr s.length (s.drop (i + 1)).length (s.drop (i + 1))
    (by simp [List.length_drop]) (le_refl _)

theorem indexOfSub_gt (a : List Char) (ha : ∀ c ∈ a, c ≠ '>') :
    ∀ x, indexOfSub ['>'] (a ++ '>' :: x) = some a.length := by
  induction a with
  | nil =>
    intro x
    rw [List.nil_append]
    simp only [indexOfSub]
    rw [if_pos (show startsWithCh ['>'] ('>' :: x) = true by simp [startsWithCh])]
    rfl
  | cons b bs ih =>
    intro x
    rw [List.cons_append]
    simp only [indexOfSub]
    rw [startsWith_head_ne '>' b _ _ (Ne.symm (ha b (by simp)))]
    simp only [Bool.false_eq_true, if_false]
    rw [ih (fun d hd => ha d (by simp [hd])) x]
    rfl

theorem stripTags_token (a : List Char) (ha : ∀ c ∈ a, c ≠ '<') (x : List Char) :
    stripTags (a ++ x) = a ++ stripTags x := by
  induction a with
  | nil => simp
  | cons c cs ih =>
    rw [List.cons_append, stripTags_cons_not_lt c _ (ha c (by simp))]
    rw [ih (fun d hd => ha d (by simp [hd]))]
    rfl

theorem stripTags_block (r : StyleRun) (rest : List Char) (hwf : wellFormedRun r) :
    stripTags (decodedBlock r ++ rest) = escapeHtml r.text ++ stripTags rest := by
  have hSsafe := buildStyleString_safe r (fun c hc => hwf.2 c hc)
  have hTsafe := escapeHtml_safe r.text
  rw [decodedBlock_shape]
  have hform : tl "span style=\"" ++ (buildStyleString r ++ '"' :: '>' ::
      (escapeHtml r.text ++ ('<' :: '/' :: (tl "span>" ++ rest)))) =
      (tl "span style=\"" ++ (buildStyleString r ++ ['"'])) ++ '>' ::
        (escapeHtml r.text ++ ('<' :: '/' :: (tl "span>" ++ rest))) := by
    simp [List.append_assoc]
  have h1 : indexOfSub ['>'] (tl "span style=\"" ++ (buildStyleString r ++ '"' :: '>' ::
      (escapeHtml r.text ++ ('<' :: '/' :: (tl "span>" ++ rest))))) =
      some ((tl "span style=\"" ++ (buildStyleString r ++ ['"'])).length) := by
    rw [hform]
    refine indexOfSub_gt _ ?_ _
    intro c hc
    simp only [List.mem_append] at hc
    rcases hc with hc | hc | hc
    · revert hc
      have : ∀ c ∈ tl "span style=\"", c ≠ '>' := by decide
      exact this c
    · exact (hSsafe c hc).2.2
    · simp at hc
      subst hc
      decide
  have hlen : (tl "span style=\"" ++ (buildStyleString r ++ ['"'])).length =
      13 + (buildStyleString r).length := by
    simp [List.length_append]
    have : (tl "span style=\"").length = 12 := by decide
    omega
  rw [stripTags_cons_lt_some _ _ h1 (by rw [hlen]; omega)]
  have hdrop : (tl "span style=\"" ++ (buildStyleString r ++ '"' :: '>' ::
      (escapeHtml r.text ++ ('<' :: '/' :: (tl "span>" ++ rest))))).drop
        ((tl "span style=\"" ++ (buildStyleString r ++ ['"'])).length + 1) =
      escapeHtml r.text ++ ('<' :: '/' :: (tl "span>" ++ rest)) := by
    have hform2 : tl "span style=\"" ++ (buildStyleString r ++ '"' :: '>' ::
        (escapeHtml r.text ++ ('<' :: '/' :: (tl "span>" ++ rest)))) =
        (tl "span style=\"" ++ (buildStyleString r ++ ['"', '>'])) ++
          (escapeHtml r.text ++ ('<' :: '/' :: (tl "span>" ++ rest))) := by
      simp [List.append_assoc]
    have hlen2 : (tl "span style=\"" ++ (buildStyleString r ++ ['"'])).length + 1 =
        (tl "span style=\"" ++ (buildStyleString r ++ ['"', '>'])).length := by
      simp [List.length_append]
      omega
    rw [hform2, hlen2, List.drop_left]
  rw [hdrop]
  rw [stripTags_token (escapeHtml r.text) (fun c hc => (hTsafe c hc).1)]
  have h2 : indexOfSub ['>'] ('/' :: (tl "span>" ++ rest)) = some 5 :=
    indexOfSub_gt (tl "/span") (by decide) rest
  rw [stripTags_cons_lt_some _ 5 h2 (by omega)]
  have hdrop2 : ('/' :: (tl "span>" ++ rest)).drop 6 = rest := rfl
  rw [hdrop2]

theorem stripTags_blocks (runs : List StyleRun) (h : ∀ r ∈ runs, wellFormedRun r) :
    stripTags ((runs.map decodedBlock).flatten) =
      (runs.map (fun r => escapeHtml r.text)).flatten := by
  induction runs with
  | nil => rfl
  | cons r rs ih =>
    rw [show ((r :: rs).map decodedBlock).flatten =
      decodedBlock r ++ (rs.map decodedBlock).flatten from by simp]
    rw [stripTags_block r _ (h r (by simp))]
    rw [ih (fun r' hr' => h r' (by simp [hr']))]
    simp

theorem escape_flatten (ts : List (List Char)) :
    (ts.map escapeHtml).flatten = escapeHtml ts.flatten := by
  induction ts with
  | nil => simp [escapeHtml_flatMap]
  | cons t ts ih =>
    simp only [List.map_cons, List.flatten_cons, ih, List.flatten_cons]
    rw [escapeHtml_append]

theorem concatTexts_resolve (runs : List StyleRun) :
    concatTexts (runs.map resolveRun) = (runs.map (fun r => r.text)).flatten := by
  unfold concatTexts resolveRun
  congr 1
  induction runs with
  | nil => rfl
  | cons r rs ih => simp only [List.map_cons, List.map_map] at *; rw [ih]

theorem concat_eq_visible_general (runs : List StyleRun) (h : ∀ r ∈ runs, wellFormedRun r) :
    concatTexts (parseHTML (encodeRuns runs)) = extractPlainTextFromHTML (encodeRuns runs) := by
  rw [roundTrip_general runs h, concatTexts_resolve]
  unfold extractPlainTextFromHTML
  rw [replaceBr_encodeRuns runs
    (fun r hr c hc => ((buildStyleString_safe r (fun d hd => (h r hr).2 d hd)) c hc).2.1)]
  rw [stripTags_blocks runs h]
  rw [show (runs.map (fun r => escapeHtml r.text)) = ((runs.map (fun r => r.text)).map escapeHtml) from by simp]
  rw [escape_flatten, decodeHTML_escapeHtml]


/-! ### Entity-free decode identity and unterminated-tag behaviour -/

/-- A global replace whose pattern head never occurs in the subject is the identity. -/
theorem replaceAllCh_id_of_head_notin (q : Char) (ps r : List Char) :
    ∀ s : List Char, q ∉ s → replaceAllCh (q :: ps) r s = s := by
  intro s
  induction s with
  | nil => intro _; exact replaceAllCh_nil _ _
  | cons c cs ih =>
    intro hnot
    have hq : q ≠ c := fun h => hnot (by simp [h])
    have hsw : startsWithCh (q :: ps) (c :: cs) = false := by
      simp [startsWithCh, hq]
    rw [replaceAllCh_cons_neg _ _ _ _ (by
      intro hcon
      rw [hsw] at hcon
      exact absurd hcon.2 (by simp))]
    rw [ih (fun h => hnot (by simp [h]))]

/-- Entity decoding is the identity on ampersand-free text. -/
theorem decodeHTML_no_amp (s : List Char) (h : '&' ∉ s) : decodeHTML s = s := by
  unfold decodeHTML
  have h1 : replaceAllCh (tl "&lt;") ['<'] s = s :=
    replaceAllCh_id_of_head_notin '&' (tl "lt;") ['<'] s h
  have h2 : replaceAllCh (tl "&gt;") ['>'] s = s :=
    replaceAllCh_id_of_head_notin '&' (tl "gt;") ['>'] s h
  have h3 : replaceAllCh (tl "&quot;") ['"'] s = s :=
    replaceAllCh_id_of_head_notin '&' (tl "quot;") ['"'] s h
  have h4 : replaceAllCh (tl "&#039;") [apos] s = s :=
    replaceAllCh_id_of_head_notin '&' (tl "#039;") [apos] s h
  have h5 : replaceAllCh (tl "&amp;") ['&'] s = s :=
    replaceAllCh_id_of_head_notin '&' (tl "amp;") ['&'] s h
  rw [h1, h2, h3, h4, h5]

/-- A span whose `style` attribute matches but that has no closing
`</span>` and no further `<` after it is emitted as one literal unstyled
segment: nothing is dropped and scanning never resumes past the tag. -/
theorem parseHTML_unterminated_span (σ t : List Char) (hσne : σ ≠ [])
    (hσ : ∀ c ∈ σ, c ≠ '"' ∧ c ≠ '<') (ht : ∀ c ∈ t, c ≠ '<') :
    parseHTML (tl "<span style=\"" ++ (σ ++ '"' :: '>' :: t)) =
      [⟨decodeHTML (tl "<span style=\"" ++ (σ ++ '"' :: '>' :: t)), emptyStyles⟩] := by
  have hu : ∀ c ∈ tl "pan style=\"" ++ (σ ++ '"' :: '>' :: t), c ≠ '<' := by
    intro c hc
    simp only [List.mem_append, List.mem_cons] at hc
    rcases hc with hc | hc | rfl | rfl | hc
    · revert hc
      have : ∀ c ∈ tl "pan style=\"", c ≠ '<' := by decide
      exact this c
    · exact (hσ c hc).2
    · decide
    · decide
    · exact ht c hc
  unfold parseHTML
  have hbr : replaceBr (tl "<span style=\"" ++ (σ ++ '"' :: '>' :: t)) =
      tl "<span style=\"" ++ (σ ++ '"' :: '>' :: t) := by
    rw [show tl "<span style=\"" ++ (σ ++ '"' :: '>' :: t) =
      '<' :: 's' :: ((tl "pan style=\"" ++ (σ ++ '"' :: '>' :: t)) ++ []) from by
      simp only [List.append_nil]
      rfl]
    rw [replaceBr_not_b_head 's' _ [] (by decide) (by decide)
      (fun c hc => hu c (by simpa using hc))]
    simp [replaceBr_nil]
  rw [hbr]
  rw [show tl "<span style=\"" ++ (σ ++ '"' :: '>' :: t) =
    '<' :: (tl "span style=\"" ++ (σ ++ '"' :: '>' :: t)) from rfl]
  have hsp : startsWithCh (tl "<span")
      ('<' :: (tl "span style=\"" ++ (σ ++ '"' :: '>' :: t))) = true :=
    startsWith_self_append (tl "<span") (tl " style=\"" ++ (σ ++ '"' :: '>' :: t))
  have hm : findSpanMatch ('<' :: (tl "span style=\"" ++ (σ ++ '"' :: '>' :: t))) =
      some (σ, 15 + σ.length) := findSpanMatch_block σ t hσne (fun c hc => (hσ c hc).1)
  have hci : indexOfFrom (tl "</span>")
      ('<' :: (tl "span style=\"" ++ (σ ++ '"' :: '>' :: t))) (15 + σ.length) = none := by
    unfold indexOfFrom
    have hshape : ('<' :: (tl "span style=\"" ++ (σ ++ '"' :: '>' :: t))) =
        (('<' :: tl "span style=\"") ++ σ ++ ['"', '>']) ++ t := by
      simp [List.append_assoc]
    have hlen15 : (('<' :: tl "span style=\"") ++ σ ++ ['"', '>']).length = 15 + σ.length := by
      simp [List.length_append]
      have : (tl "span style=\"").length = 12 := by decide
      omega
    have hdropm : List.drop (15 + σ.length)
        ('<' :: (tl "span style=\"" ++ (σ ++ '"' :: '>' :: t))) = t := by
      rw [hshape, ← hlen15, List.drop_left]
    rw [hdropm]
    have hnone : indexOfSub (tl "</span>") t = none :=
      indexOfSub_none_of_no_lt (tl "/span>") t ht
    rw [hnone]
    rfl
  rw [scanTop_span_noclose '<' (tl "span style=\"" ++ (σ ++ '"' :: '>' :: t)) []
    σ (15 + σ.length) hsp hm hci]
  have htail : ∀ c ∈ tl "span style=\"" ++ (σ ++ '"' :: '>' :: t), c ≠ '<' := by
    intro c hc
    simp only [List.mem_append, List.mem_cons] at hc
    rcases hc with hc | hc | rfl | rfl | hc
    · revert hc
      have : ∀ c ∈ tl "span style=\"", c ≠ '<' := by decide
      exact this c
    · exact (hσ c hc).2
    · decide
    · decide
    · exact ht c hc
  rw [scanTop_no_lt _ htail ['<']]
  rw [show flushTop ([] : List Char) = [] from rfl]
  unfold flushTop
  rw [if_neg (by simp)]
  rfl

/-! ### Unit-parsing branch lemmas -/

/-- The em branch of `parseLetterSpacing` with a usable font size. -/
theorem parseLetterSpacing_em_known (s : List Char) (v fs : ℚ)
    (h1 : endsWithCh (tl "%") s = false) (h2 : endsWithCh (tl "em") s = true)
    (h3 : jsParseFloat s = some v) (h4 : fs ≠ 0) :
    parseLetterSpacing s (some fs) = some ⟨some (v * fs), FUnit.PIXELS⟩ := by
  unfold parseLetterSpacing
  rw [if_neg (by simp [h1]), if_pos h2,
    if_pos (show numTruthy (some fs) = true by simp [numTruthy, h4])]
  simp [h3]

/-- The em branch of `parseLetterSpacing` with the 16px default. -/
theorem parseLetterSpacing_em_default (s : List Char) (v : ℚ)
    (h1 : endsWithCh (tl "%") s = false) (h2 : endsWithCh (tl "em") s = true)
    (h3 : jsParseFloat s = some v) :
    parseLetterSpacing s none = some ⟨some (v * 16), FUnit.PIXELS⟩ := by
  unfold parseLetterSpacing
  rw [if_neg (by simp [h1]), if_pos h2,
    if_neg (show ¬ numTruthy none = true by simp [numTruthy])]
  simp [h3]

/-- The percent branch of `parseLineHeight` passes the value through. -/
theorem parseLineHeight_percent (s : List Char) (fs : Option ℚ)
    (h1 : endsWithCh (tl "%") s = true) :
    parseLineHeight s fs = some ⟨jsParseFloat s, FUnit.PERCENT⟩ := by
  unfold parseLineHeight
  rw [if_pos h1]

/-- The unitless branch of `parseLineHeight` with a usable font size. -/
theorem parseLineHeight_unitless_known (s : List Char) (v fs : ℚ)
    (h1 : endsWithCh (tl "%") s = false) (h2 : endsWithCh (tl "px") s = false)
    (h3 : jsParseFloat s = some v) (h4 : fs ≠ 0) :
    parseLineHeight s (some fs) = some ⟨some (v * fs), FUnit.PIXELS⟩ := by
  unfold parseLineHeight
  rw [if_neg (by simp [h1]), if_neg (by simp [h2]), h3]
  simp [numTruthy, h4]

/-- The unitless branch of `parseLineHeight` without a font size. -/
theorem parseLineHeight_unitless_unknown (s : List Char) (v : ℚ)
    (h1 : endsWithCh (tl "%") s = false) (h2 : endsWithCh (tl "px") s = false)
    (h3 : jsParseFloat s = some v) :
    parseLineHeight s none = some ⟨some (v * 100), FUnit.PERCENT⟩ := by
  unfold parseLineHeight
  rw [if_neg (by simp [h1]), if_neg (by simp [h2]), h3]
  simp [numTruthy]

/-! ### Chunk-loop lemmas -/

/-- The chunking worker is independent of sufficient fuel. -/
theorem chunkF_congr2 {α : Type} :
    ∀ (f g : Nat) (xs : List α), xs.length ≤ f → xs.length ≤ g → chunkF f xs = chunkF g xs := by
  intro f
  induction f with
  | zero =>
    intro g xs hf _
    have : xs = [] := List.eq_nil_of_length_eq_zero (Nat.le_zero.mp hf)
    subst this
    cases g <;> rfl
  | succ f ih =>
    intro g xs hf hg
    cases xs with
    | nil => cases g <;> rfl
    | cons x rest =>
      cases g with
      | zero => simp at hg
      | succ g =>
        show chunkF (f + 1) (x :: rest) = chunkF (g + 1) (x :: rest)
        simp only [chunkF]
        congr 1
        apply ih
        · simp only [List.length_drop, List.length_cons, CHUNK_SIZE]
          simp only [List.length_cons] at hf
          omega
        · simp only [List.length_drop, List.length_cons, CHUNK_SIZE]
          simp only [List.length_cons] at hg
          omega

/-- One unfolding of the chunking loop on a non-empty list. -/
theorem chunkTexts_ne {α : Type} (xs : List α) (h : xs ≠ []) :
    chunkTexts xs = xs.take CHUNK_SIZE :: chunkTexts (xs.drop CHUNK_SIZE) := by
  cases xs with
  | nil => exact absurd rfl h
  | cons x rest =>
    show chunkF (rest.length + 1) (x :: rest) = _
    simp only [chunkF]
    congr 1
    apply chunkF_congr2
    · simp [CHUNK_SIZE]
    · simp

/-- Chunking preserves order and loses nothing: the batches flatten back to the input. -/
theorem chunkTexts_flatten {α : Type} (xs : List α) : (chunkTexts xs).flatten = xs := by
  suffices H : ∀ (n : Nat) (ys : List α), ys.length = n → (chunkTexts ys).flatten = ys from
    H xs.length xs rfl
  intro n
  induction n using Nat.strong_induction_on with
  | _ n ih =>
    intro ys hlen
    by_cases h : ys = []
    · subst h; rfl
    · rw [chunkTexts_ne ys h, List.flatten_cons,
        ih (ys.drop CHUNK_SIZE).length
          (by
            have hpos : 0 < ys.length := List.length_pos.mpr h
            simp [CHUNK_SIZE]
            omega)
          (ys.drop CHUNK_SIZE) rfl,
        List.take_append_drop]

/-! ### Map deletion -/

/-- Deleting a key removes it from the map. -/
theorem mapGet_mapDelete {β : Type} (k : List Char) (m : List (List Char × β)) :
    mapGet k (mapDelete k m) = none := by
  unfold mapGet mapDelete
  rw [List.find?_eq_none.mpr]
  · rfl
  · intro p hp
    have h2 := (List.mem_filter.mp hp).2
    simp at h2 ⊢
    exact h2

/-! ## Claim theorems -/

/-- Claim C1 (corrected): for every style-run sequence whose runs are
well-formed -- non-empty text and a font family containing no quote or
angle-bracket character -- decoding the markup produced by encoding the
sequence yields segments whose texts and resolved styles equal the original
runs, `decode(encode(S)) = S` with each style rendered through
`buildStyleString` and reparsed.  The claim is false for a run with empty
text (`claim_C1_counterexample`): its empty span is dropped by the decoder. -/
theorem claim_C1_round_trip (runs : List StyleRun) (h : ∀ r ∈ runs, wellFormedRun r) :
    parseHTML (encodeRuns runs) = runs.map resolveRun := roundTrip_general runs h

/-- Witness for C1: the two concrete runs `rW1`, `rW2` are well formed and
round-trip exactly. -/
theorem claim_C1_round_trip_witness :
    (∀ r ∈ [rW1, rW2], wellFormedRun r) ∧
    parseHTML (encodeRuns [rW1, rW2]) = [rW1, rW2].map resolveRun :=
  ⟨by decide, claim_C1_round_trip [rW1, rW2] (by decide)⟩

set_option maxRecDepth 40000 in
/-- Counterexample to C1 as stated: a run with empty text is lost by the
round trip, so without a well-formedness hypothesis the property fails. -/
theorem claim_C1_counterexample :
    ¬ parseHTML (encodeRuns [rEmpty]) = [rEmpty].map resolveRun := by decide

set_option maxRecDepth 40000 in
/-- Claim C2 (corrected): for every markup string produced by the encoder
from well-formed runs, the concatenation of the decoded segments' texts
equals the markup's visible text (tags stripped, entities decoded,
line-break elements mapped to newline).  The claim is false for arbitrary
markup strings (`claim_C2_counterexample`): an unterminated emphasis
element makes the decoder emit tag characters as segment text. -/
theorem claim_C2_concat_visible (runs : List StyleRun) (h : ∀ r ∈ runs, wellFormedRun r) :
    concatTexts (parseHTML (encodeRuns runs)) = extractPlainTextFromHTML (encodeRuns runs) :=
  concat_eq_visible_general runs h

/-- Witness for C2: the encoder output for `rW1`, `rW2` -- which contains a
`<br/>`, an escaped ampersand, styled spans and a newline -- satisfies the
concatenation invariant. -/
theorem claim_C2_concat_visible_witness :
    (∀ r ∈ [rW1, rW2], wellFormedRun r) ∧
    concatTexts (parseHTML (encodeRuns [rW1, rW2])) =
      extractPlainTextFromHTML (encodeRuns [rW1, rW2]) :=
  ⟨by decide, claim_C2_concat_visible [rW1, rW2] (by decide)⟩

set_option maxRecDepth 40000 in
/-- Counterexample to C2 as stated: on the raw markup `<em>hi` the decoded
segments' concatenation is `<em>hi` itself while the visible text is `hi`,
so the invariant does not hold for every markup string. -/
theorem claim_C2_counterexample :
    ¬ concatTexts (parseHTML (tl "<em>hi")) = extractPlainTextFromHTML (tl "<em>hi") := by
  decide

set_option maxRecDepth 40000 in
/-- Claim C3: the font-style-name decoder checks lowercase substrings in the
fixed order semibold/"semi bold" (600), bold (700), medium (500),
light (300), thin (100), black/heavy (900), otherwise 400, with italic as
a separate substring check; in particular "SemiBold Italic" yields weight
600 plus italic and is never matched as generic bold 700. -/
theorem claim_C3_weight_precedence :
    weightOf (tl "SemiBold Italic") = 600 ∧
    italicOf (tl "SemiBold Italic") = true ∧
    weightOf (tl "SemiBold Italic") ≠ 700 ∧
    (∀ s, (hasSub (tl "semibold") (lowerL s) || hasSub (tl "semi bold") (lowerL s)) = true →
      weightOf s = 600) ∧
    (∀ s, (hasSub (tl "semibold") (lowerL s) || hasSub (tl "semi bold") (lowerL s)) = false →
      hasSub (tl "bold") (lowerL s) = true → weightOf s = 700) ∧
    (∀ s, (hasSub (tl "semibold") (lowerL s) || hasSub (tl "semi bold") (lowerL s)) = false →
      hasSub (tl "bold") (lowerL s) = false → hasSub (tl "medium") (lowerL s) = true →
      weightOf s = 500) ∧
    (∀ s, (hasSub (tl "semibold") (lowerL s) || hasSub (tl "semi bold") (lowerL s)) = false →
      hasSub (tl "bold") (lowerL s) = false → hasSub (tl "medium") (lowerL s) = false →
      hasSub (tl "light") (lowerL s) = true → weightOf s = 300) ∧
    (∀ s, (hasSub (tl "semibold") (lowerL s) || hasSub (tl "semi bold") (lowerL s)) = false →
      hasSub (tl "bold") (lowerL s) = false → hasSub (tl "medium") (lowerL s) = false →
      hasSub (tl "light") (lowerL s) = false → hasSub (tl "thin") (lowerL s) = true →
      weightOf s = 100) ∧
    (∀ s, (hasSub (tl "semibold") (lowerL s) || hasSub (tl "semi bold") (lowerL s)) = false →
      hasSub (tl "bold") (lowerL s) = false → hasSub (tl "medium") (lowerL s) = false →
      hasSub (tl "light") (lowerL s) = false → hasSub (tl "thin") (lowerL s) = false →
      (hasSub (tl "black") (lowerL s) || hasSub (tl "heavy") (lowerL s)) = true →
      weightOf s = 900) ∧
    (∀ s, (hasSub (tl "semibold") (lowerL s) || hasSub (tl "semi bold") (lowerL s)) = false →
      hasSub (tl "bold") (lowerL s) = false → hasSub (tl "medium") (lowerL s) = false →
      hasSub (tl "light") (lowerL s) = false → hasSub (tl "thin") (lowerL s) = false →
      (hasSub (tl "black") (lowerL s) || hasSub (tl "heavy") (lowerL s)) = false →
      weightOf s = 400) ∧
    (∀ s, italicOf s = hasSub (tl "italic") (lowerL s)) := by
  refine ⟨by decide, by decide, by decide, ?_, ?_, ?_, ?_, ?_, ?_, ?_, ?_⟩
  · intro s h1
    simp [weightOf, h1]
  · intro s h1 h2
    simp [weightOf, h1, h2]
  · intro s h1 h2 h3
    simp [weightOf, h1, h2, h3]
  · intro s h1 h2 h3 h4
    simp [weightOf, h1, h2, h3, h4]
  · intro s h1 h2 h3 h4 h5
    simp [weightOf, h1, h2, h3, h4, h5]
  · intro s h1 h2 h3 h4 h5 h6
    simp [weightOf, h1, h2, h3, h4, h5, h6]
  · intro s h1 h2 h3 h4 h5 h6
    simp [weightOf, h1, h2, h3, h4, h5, h6]
  · intro s
    rfl

/-- Witness for C3: "Bold" fails the semibold checks, passes the bold check,
and the bold branch of the claim gives weight 700. -/
theorem claim_C3_weight_precedence_witness :
    (hasSub (tl "semibold") (lowerL (tl "Bold")) ||
      hasSub (tl "semi bold") (lowerL (tl "Bold"))) = false ∧
    hasSub (tl "bold") (lowerL (tl "Bold")) = true ∧
    weightOf (tl "Bold") = 700 :=
  ⟨by decide, by decide,
    claim_C3_weight_precedence.2.2.2.2.1 (tl "Bold") (by decide) (by decide)⟩

/-- Claim C4: letter-spacing in `em` converts to `value * fontSizePx` pixels
with the font size defaulting to 16 when unknown (so `-0.025em` gives
`-0.4` px); a percent value passes through unchanged (`120%` gives 120
percent); a unitless line-height converts to `value * fontSizePx` pixels
when a font size is known (`1.18` at size 20 gives `23.6` px) and to
`value * 100` percent when it is unknown. -/
theorem claim_C4_unit_conversion :
    parseLetterSpacing (tl "-0.025em") (some 16) =
      some ⟨some (-(2:ℚ)/5), FUnit.PIXELS⟩ ∧
    parseLetterSpacing (tl "-0.025em") none =
      some ⟨some (-(2:ℚ)/5), FUnit.PIXELS⟩ ∧
    (∀ fs, parseLineHeight (tl "120%") fs = some ⟨some (120:ℚ), FUnit.PERCENT⟩) ∧
    parseLineHeight (tl "1.18") (some 20) = some ⟨some ((118:ℚ)/5), FUnit.PIXELS⟩ ∧
    parseLineHeight (tl "1.18") none = some ⟨some (118:ℚ), FUnit.PERCENT⟩ ∧
    (∀ s v fs, endsWithCh (tl "%") s = false → endsWithCh (tl "em") s = true →
      jsParseFloat s = some v → fs ≠ 0 →
      parseLetterSpacing s (some fs) = some ⟨some (v * fs), FUnit.PIXELS⟩) ∧
    (∀ s v, endsWithCh (tl "%") s = false → endsWithCh (tl "em") s = true →
      jsParseFloat s = some v →
      parseLetterSpacing s none = some ⟨some (v * 16), FUnit.PIXELS⟩) ∧
    (∀ s fs, endsWithCh (tl "%") s = true →
      parseLineHeight s fs = some ⟨jsParseFloat s, FUnit.PERCENT⟩) ∧
    (∀ s v fs, endsWithCh (tl "%") s = false → endsWithCh (tl "px") s = false →
      jsParseFloat s = some v → fs ≠ 0 →
      parseLineHeight s (some fs) = some ⟨some (v * fs), FUnit.PIXELS⟩) ∧
    (∀ s v, endsWithCh (tl "%") s = false → endsWithCh (tl "px") s = false →
      jsParseFloat s = some v →
      parseLineHeight s none = some ⟨some (v * 100), FUnit.PERCENT⟩) := by
  have hpfLS : jsParseFloat (tl "-0.025em") = some (-(1:ℚ)/40) := by
    have hp : jsParseParts (tl "-0.025em") = some (true, tl "0", tl "025", 0) := by decide
    have hv1 : digitsVal (tl "0") = 0 := by decide
    have hv2 : digitsVal (tl "025") = 25 := by decide
    have hl : (tl "025").length = 3 := by decide
    simp only [jsParseFloat, hp, Option.map_some]
    norm_num [hv1, hv2, hl]
  have hpfLH : jsParseFloat (tl "1.18") = some ((59:ℚ)/50) := by
    have hp : jsParseParts (tl "1.18") = some (false, tl "1", tl "18", 0) := by decide
    have hv1 : digitsVal (tl "1") = 1 := by decide
    have hv2 : digitsVal (tl "18") = 18 := by decide
    have hl : (tl "18").length = 2 := by decide
    simp only [jsParseFloat, hp, Option.map_some]
    norm_num [hv1, hv2, hl]
  have hpfPct : jsParseFloat (tl "120%") = some (120:ℚ) := by
    have hp : jsParseParts (tl "120%") = some (false, tl "120", [], 0) := by decide
    have hv1 : digitsVal (tl "120") = 120 := by decide
    have hv2 : digitsVal ([] : List Char) = 0 := by decide
    simp only [jsParseFloat, hp, Option.map_some]
    norm_num [hv1, hv2]
  refine ⟨?_, ?_, ?_, ?_, ?_,
    fun s v fs h1 h2 h3 h4 => parseLetterSpacing_em_known s v fs h1 h2 h3 h4,
    fun s v h1 h2 h3 => parseLetterSpacing_em_default s v h1 h2 h3,
    ?_,
    fun s v fs h1 h2 h3 h4 => parseLineHeight_unitless_known s v fs h1 h2 h3 h4,
    fun s v h1 h2 h3 => parseLineHeight_unitless_unknown s v h1 h2 h3⟩
  · rw [parseLetterSpacing_em_known (tl "-0.025em") (-(1:ℚ)/40) 16
      (by decide) (by decide) hpfLS (by norm_num)]
    norm_num
  · rw [parseLetterSpacing_em_default (tl "-0.025em") (-(1:ℚ)/40)
      (by decide) (by decide) hpfLS]
    norm_num
  · intro fs
    rw [parseLineHeight_percent (tl "120%") fs (by decide), hpfPct]
  · rw [parseLineHeight_unitless_known (tl "1.18") ((59:ℚ)/50) 20
      (by decide) (by decide) hpfLH (by norm_num)]
    norm_num
  · rw [parseLineHeight_unitless_unknown (tl "1.18") ((59:ℚ)/50)
      (by decide) (by decide) hpfLH]
    norm_num
  · intro s fs h1
    exact parseLineHeight_percent s fs h1

/-- Witness for C4: the em-conversion branch applied at the concrete input
`2em` with font size 10. -/
theorem claim_C4_unit_conversion_witness :
    endsWithCh (tl "%") (tl "2em") = false ∧
    endsWithCh (tl "em") (tl "2em") = true ∧
    jsParseFloat (tl "2em") = some (2:ℚ) ∧
    (10:ℚ) ≠ 0 ∧
    parseLetterSpacing (tl "2em") (some 10) = some ⟨some ((2:ℚ) * 10), FUnit.PIXELS⟩ := by
  have hpf : jsParseFloat (tl "2em") = some (2:ℚ) := by
    have hp : jsParseParts (tl "2em") = some (false, tl "2", [], 0) := by decide
    have hv1 : digitsVal (tl "2") = 2 := by decide
    have hv2 : digitsVal ([] : List Char) = 0 := by decide
    simp only [jsParseFloat, hp, Option.map_some]
    norm_num [hv1, hv2]
  exact ⟨by decide, by decide, hpf, by norm_num,
    claim_C4_unit_conversion.2.2.2.2.2.1 (tl "2em") 2 10 (by decide) (by decide) hpf
      (by norm_num)⟩

/-- Claim C5: when the serialized payload exceeds 5 MiB the text-unit list is
split into consecutive order-preserving 200-unit batches -- 450 units give
exactly three batches of sizes 200, 200, 50 tagged 1/3, 2/3, 3/3 -- the
flattening of the batches restores the original list, and only the last
batch's response is retained. -/
theorem claim_C5_chunking {α : Type} (xs : List α) (h450 : xs.length = 450) :
    CHUNK_SIZE = 200 ∧
    chunkTexts xs =
      [xs.take CHUNK_SIZE, (xs.drop CHUNK_SIZE).take CHUNK_SIZE,
       (xs.drop CHUNK_SIZE).drop CHUNK_SIZE] ∧
    (chunkTexts xs).map List.length = [200, 200, 50] ∧
    chunkPayloads xs =
      [(xs.take CHUNK_SIZE, 1, 3), ((xs.drop CHUNK_SIZE).take CHUNK_SIZE, 2, 3),
       ((xs.drop CHUNK_SIZE).drop CHUNK_SIZE, 3, 3)] ∧
    (chunkTexts xs).flatten = xs ∧
    (∀ plen, plen > MAX_PAYLOAD_SIZE →
      exportBatches plen xs = (chunkPayloads xs).map (fun p => (p.1, some p.2))) ∧
    (∀ (R : Type) (r1 r2 r3 : Option R), retainedResponse [r1, r2, r3] = r3) := by
  have h1 : xs ≠ [] := by
    intro e
    rw [e] at h450
    simp at h450
  have e1 := chunkTexts_ne xs h1
  have hd1 : (xs.drop CHUNK_SIZE).length = 250 := by
    simp [CHUNK_SIZE, h450]
  have h2 : xs.drop CHUNK_SIZE ≠ [] := by
    intro e
    rw [e] at hd1
    simp at hd1
  have e2 := chunkTexts_ne (xs.drop CHUNK_SIZE) h2
  have hd2 : ((xs.drop CHUNK_SIZE).drop CHUNK_SIZE).length = 50 := by
    simp only [List.length_drop, CHUNK_SIZE, h450]
  have h3 : (xs.drop CHUNK_SIZE).drop CHUNK_SIZE ≠ [] := by
    intro e
    rw [e] at hd2
    simp at hd2
  have e3 := chunkTexts_ne ((xs.drop CHUNK_SIZE).drop CHUNK_SIZE) h3
  have hd3 : (((xs.drop CHUNK_SIZE).drop CHUNK_SIZE).drop CHUNK_SIZE) = [] := by
    apply List.eq_nil_of_length_eq_zero
    simp only [List.length_drop, CHUNK_SIZE, h450]
  have hlist : chunkTexts xs =
      [xs.take CHUNK_SIZE, (xs.drop CHUNK_SIZE).take CHUNK_SIZE,
       (xs.drop CHUNK_SIZE).drop CHUNK_SIZE] := by
    rw [e1, e2, e3, hd3]
    have htail : ((xs.drop CHUNK_SIZE).drop CHUNK_SIZE).take CHUNK_SIZE =
        (xs.drop CHUNK_SIZE).drop CHUNK_SIZE :=
      List.take_of_length_le (by rw [hd2]; decide)
    rw [htail]
    rfl
  have l1 : (xs.take CHUNK_SIZE).length = 200 := by
    rw [List.length_take, h450]
    decide
  have l2 : ((xs.drop CHUNK_SIZE).take CHUNK_SIZE).length = 200 := by
    rw [List.length_take, hd1]
    decide
  have hlens : (chunkTexts xs).map List.length = [200, 200, 50] := by
    rw [hlist]
    simp only [List.map_cons, List.map_nil, l1, l2, hd2]
  refine ⟨rfl, hlist, hlens, ?_, chunkTexts_flatten xs, ?_, ?_⟩
  · unfold chunkPayloads
    rw [hlist]
    simp [List.enum, List.enumFrom]
  · intro plen hp
    unfold exportBatches
    rw [if_pos hp]
  · intro R r1 r2 r3
    cases r3 <;> simp [retainedResponse, List.enum, List.enumFrom]

/-- Witness for C5: a concrete 450-element list chunks into the three
prescribed batches. -/
theorem claim_C5_chunking_witness :
    (List.replicate 450 (0 : Nat)).length = 450 ∧
    chunkTexts (List.replicate 450 (0 : Nat)) =
      [(List.replicate 450 (0 : Nat)).take CHUNK_SIZE,
       ((List.replicate 450 (0 : Nat)).drop CHUNK_SIZE).take CHUNK_SIZE,
       ((List.replicate 450 (0 : Nat)).drop CHUNK_SIZE).drop CHUNK_SIZE] :=
  ⟨List.length_replicate 450 0,
    (claim_C5_chunking (List.replicate 450 (0 : Nat)) (List.length_replicate 450 0)).2.1⟩

/-- Claim C6 (corrected): a style element with no matching closing tag is NOT
dropped; the whole remaining input including the element's interior text is
emitted literally as one unstyled segment (the unmatched-`style` regex test
succeeds but the missing `</span>` sends the scanner into its literal
character branch, which never finds another tag start).  Stated here for
entity-free inputs so the literal text is the input itself. -/
theorem claim_C6_unterminated (σ t : List Char) (hσne : σ ≠ [])
    (hσ : ∀ c ∈ σ, c ≠ '"' ∧ c ≠ '<') (hσa : '&' ∉ σ)
    (ht : ∀ c ∈ t, c ≠ '<') (hta : '&' ∉ t) :
    parseHTML (tl "<span style=\"" ++ (σ ++ '"' :: '>' :: t)) =
      [⟨tl "<span style=\"" ++ (σ ++ '"' :: '>' :: t), emptyStyles⟩] := by
  rw [parseHTML_unterminated_span σ t hσne hσ ht]
  have hamp : '&' ∉ tl "<span style=\"" ++ (σ ++ '"' :: '>' :: t) := by
    intro hmem
    simp only [List.mem_append, List.mem_cons] at hmem
    rcases hmem with hc | hc | hc | hc | hc
    · revert hc
      decide
    · exact hσa hc
    · exact absurd hc (by decide)
    · exact absurd hc (by decide)
    · exact hta hc
  rw [decodeHTML_no_amp _ hamp]

/-- Witness for C6: the concrete unterminated markup `<span style="a">hi`
comes back as one literal segment. -/
theorem claim_C6_unterminated_witness :
    (['a'] : List Char) ≠ [] ∧
    (∀ c ∈ (['a'] : List Char), c ≠ '"' ∧ c ≠ '<') ∧
    '&' ∉ (['a'] : List Char) ∧
    (∀ c ∈ tl "hi", c ≠ '<') ∧
    '&' ∉ tl "hi" ∧
    parseHTML (tl "<span style=\"" ++ (['a'] ++ '"' :: '>' :: tl "hi")) =
      [⟨tl "<span style=\"" ++ (['a'] ++ '"' :: '>' :: tl "hi"), emptyStyles⟩] :=
  ⟨by decide, by decide, by decide, by decide, by decide,
    claim_C6_unterminated ['a'] (tl "hi") (by decide) (by decide) (by decide)
      (by decide) (by decide)⟩

/-- Counterexample to C6 as stated: the interior text `hi` of the
unterminated span appears in the decoder output (as part of the literal
segment), so it is not dropped from the output. -/
theorem claim_C6_counterexample :
    parseHTML (tl "<span style=\"a\">hi") =
      [⟨tl "<span style=\"a\">hi", emptyStyles⟩] ∧
    hasSub (tl "hi") (concatTexts (parseHTML (tl "<span style=\"a\">hi"))) = true := by
  decide

/-- Claim C7: the italic fallback ladder is exactly the five italic styles
Bold Italic, SemiBold Italic, Semi Bold Italic, Medium Italic, Italic
followed by the non-italic ladder; a 900-weight italic request targets
"Black Italic"; when that and every earlier italic alternative fail to
load but "Italic" loads, the resolver picks "Italic" (before any
non-italic style); if every alternative fails the resolver returns `none`
(the range keeps its prior font); and any style it returns did load. -/
theorem claim_C7_font_fallback :
    italicAlternatives =
      [tl "Bold Italic", tl "SemiBold Italic", tl "Semi Bold Italic", tl "Medium Italic",
       tl "Italic"] ++ regularAlternatives ∧
    (∀ cur, targetStyleFor (some (tl "900")) true cur = tl "Black Italic") ∧
    (∀ avail : List Char → Bool,
      avail (tl "Black Italic") = false → avail (tl "Bold Italic") = false →
      avail (tl "SemiBold Italic") = false → avail (tl "Semi Bold Italic") = false →
      avail (tl "Medium Italic") = false → avail (tl "Italic") = true →
      resolveFontStyle avail (tl "Black Italic") true = some (tl "Italic")) ∧
    (∀ (avail : List Char → Bool) (target : List Char) (b : Bool),
      (∀ s, avail s = false) → resolveFontStyle avail target b = none) ∧
    (∀ (avail : List Char → Bool) (target s : List Char) (b : Bool),
      resolveFontStyle avail target b = some s → avail s = true) := by
  refine ⟨by decide, ?_, ?_, ?_, ?_⟩
  · intro cur
    unfold targetStyleFor
    rw [if_pos (Or.inl (by decide))]
    rfl
  · intro avail h1 h2 h3 h4 h5 h6
    unfold resolveFontStyle
    rw [if_neg (by simp [h1])]
    simp [italicAlternatives, List.find?, h2, h3, h4, h5, h6]
  · intro avail target b hall
    unfold resolveFontStyle
    rw [if_neg (by simp [hall])]
    cases b <;> exact List.find?_eq_none.mpr (fun x _ => by simp [hall])
  · intro avail target s b h
    unfold resolveFontStyle at h
    by_cases ha : avail target
    · rw [if_pos ha] at h
      cases h
      exact ha
    · rw [if_neg ha] at h
      exact List.find?_some h

/-- Witness for C7: with a catalog in which only "Italic" loads, the request
for "Black Italic" resolves to "Italic". -/
theorem claim_C7_font_fallback_witness :
    availItalicOnly (tl "Black Italic") = false ∧
    availItalicOnly (tl "Bold Italic") = false ∧
    availItalicOnly (tl "SemiBold Italic") = false ∧
    availItalicOnly (tl "Semi Bold Italic") = false ∧
    availItalicOnly (tl "Medium Italic") = false ∧
    availItalicOnly (tl "Italic") = true ∧
    resolveFontStyle availItalicOnly (tl "Black Italic") true = some (tl "Italic") :=
  ⟨by decide, by decide, by decide, by decide, by decide, by decide,
    claim_C7_font_fallback.2.2.1 availItalicOnly (by decide) (by decide) (by decide)
      (by decide) (by decide) (by decide)⟩

/-- Claim C8 (corrected): a color string is parsed only through the
`rgb(r,g,b)` / `rgba(r,g,b,a)` pattern; each captured channel is divided
by 255, which is non-negative and lies in [0,1] exactly when the captured
integer is at most 255 (the code does not clamp: `rgb(300,0,0)` yields a
channel above 1, see `claim_C8_counterexample`); hex and named colors
parse to nothing, and a failed parse keeps the prior fill. -/
theorem claim_C8_color (s : List Char) (a b c : Nat) (alpha : Option (List Char))
    (h : findColor s = some (a, b, c, alpha)) :
    parseColor s =
      some ⟨(a : ℚ)/255, (b : ℚ)/255, (c : ℚ)/255, alpha.bind jsParseFloat⟩ ∧
    (0 ≤ (a : ℚ)/255 ∧ 0 ≤ (b : ℚ)/255 ∧ 0 ≤ (c : ℚ)/255) ∧
    (a ≤ 255 → (a : ℚ)/255 ≤ 1) ∧
    (b ≤ 255 → (b : ℚ)/255 ≤ 1) ∧
    (c ≤ 255 → (c : ℚ)/255 ≤ 1) ∧
    parseColor (tl "#ff0000") = none ∧
    parseColor (tl "red") = none ∧
    (∀ prior s2, parseColor s2 = none → applyColorToFill prior s2 = prior) := by
  have hdiv : ∀ n : Nat, 0 ≤ (n : ℚ)/255 := by
    intro n
    positivity
  have hle : ∀ n : Nat, n ≤ 255 → (n : ℚ)/255 ≤ 1 := by
    intro n hn
    rw [div_le_one (by norm_num)]
    exact_mod_cast hn
  refine ⟨?_, ⟨hdiv a, hdiv b, hdiv c⟩, hle a, hle b, hle c, by decide, by decide, ?_⟩
  · simp [parseColor, h]
  · intro prior s2 h2
    unfold applyColorToFill
    rw [h2]

/-- Witness for C8: the concrete string `rgba(0,0,0,0.5)` matches and its
channels and alpha are produced by the stated normalization. -/
theorem claim_C8_color_witness :
    findColor (tl "rgba(0,0,0,0.5)") = some (0, 0, 0, some (tl "0.5")) ∧
    parseColor (tl "rgba(0,0,0,0.5)") =
      some ⟨(0 : ℚ)/255, (0 : ℚ)/255, (0 : ℚ)/255, (some (tl "0.5")).bind jsParseFloat⟩ :=
  ⟨by decide,
    (claim_C8_color (tl "rgba(0,0,0,0.5)") 0 0 0 (some (tl "0.5")) (by decide)).1⟩

/-- Counterexample to C8 as stated: `rgb(300,0,0)` is accepted and its red
channel 300/255 exceeds 1, so accepted inputs are not always normalized
into the range 0-1. -/
theorem claim_C8_counterexample :
    parseColor (tl "rgb(300,0,0)") = some ⟨(300 : ℚ)/255, 0, 0, none⟩ ∧
    ¬ (300 : ℚ)/255 ≤ 1 := by
  constructor
  · have hf : findColor (tl "rgb(300,0,0)") = some (300, 0, 0, none) := by decide
    simp [parseColor, hf]
  · norm_num

/-- Claim C9: for a translation response with two text entries of which
exactly the first is marked `isNew`, the review queue has length 1 and
contains only the `isNew` entry, with its original source text recovered
by node-id lookup in the export payload; the other entry creates no queue
entry but is still applied through the translation map. -/
theorem claim_C9_review_queue (tn : List TextUnitM) (t1 t2 : RespText) (orig : List Char)
    (h1 : t1.isNew = true) (h2 : t2.isNew = false)
    (horig : originalTextLookup tn t1.nodeId = some orig) (hor : orig ≠ []) :
    buildReviewData tn [t1, t2] =
      [{ nodeId := t1.nodeId, charactersOriginal := orig, characters := t1.characters,
         charactersTranslated := extractPlainTextFromHTML t1.html, html := t1.html }] ∧
    (buildReviewData tn [t1, t2]).length = 1 ∧
    pendingReviewsAfter tn [t1, t2] = some (buildReviewData tn [t1, t2]) ∧
    translationHtmlFor [t1, t2] t2.nodeId = some t2.html ∧
    (∀ item ∈ buildReviewData tn [t1, t2], item.nodeId = t1.nodeId) := by
  have hfilter : [t1, t2].filter (fun t => t.isNew) = [t1] := by
    simp [List.filter, h1, h2]
  have hbuild : buildReviewData tn [t1, t2] =
      [{ nodeId := t1.nodeId, charactersOriginal := orig, characters := t1.characters,
         charactersTranslated := extractPlainTextFromHTML t1.html, html := t1.html }] := by
    unfold buildReviewData
    rw [hfilter]
    simp [origOrFallback, horig, hor]
  refine ⟨hbuild, by rw [hbuild]; rfl, ?_, ?_, ?_⟩
  · unfold pendingReviewsAfter
    rw [hfilter]
    simp
  · unfold translationHtmlFor
    simp
  · intro item hitem
    rw [hbuild] at hitem
    simp at hitem
    rw [hitem]

/-- Witness for C9: the concrete payload `tnW` with entries `t1W` (new) and
`t2W` (not new) builds exactly the one-item queue for `t1W` with original
text "Hello". -/
theorem claim_C9_review_queue_witness :
    t1W.isNew = true ∧ t2W.isNew = false ∧
    originalTextLookup tnW t1W.nodeId = some (tl "Hello") ∧ tl "Hello" ≠ [] ∧
    buildReviewData tnW [t1W, t2W] =
      [{ nodeId := t1W.nodeId, charactersOriginal := tl "Hello", characters := t1W.characters,
         charactersTranslated := extractPlainTextFromHTML t1W.html, html := t1W.html }] :=
  ⟨by decide, by decide, by decide, by decide,
    (claim_C9_review_queue tnW t1W t2W (tl "Hello") (by decide) (by decide) (by decide)
      (by decide)).1⟩

/-- Claim C10: a failed upload leaves the review state completely unchanged
and reports an error (no next-language review starts); any non-error
outcome can only arise from a successful upload and consists of exactly
deleting the language's pending-review queue and node mapping and
advancing to the first remaining pending language; and on a successful
upload for a language with a duplicated frame that is precisely what
happens. -/
theorem claim_C10_upload_atomicity :
    (∀ st lang, uploadStep st lang false = (st, UploadOutcome.error)) ∧
    (∀ st lang ok st2 o, uploadStep st lang ok = (st2, o) → o ≠ UploadOutcome.error →
      ok = true ∧
      st2.pendingReviews = mapDelete lang st.pendingReviews ∧
      st2.nodeIdMappings = mapDelete lang st.nodeIdMappings ∧
      st2.duplicatedFrames = st.duplicatedFrames ∧
      st2.languageOrder = st.languageOrder ∧
      mapGet lang st2.pendingReviews = none ∧
      mapGet lang st2.nodeIdMappings = none ∧
      o = UploadOutcome.advanced (mapDelete lang st.pendingReviews).head?) ∧
    (∀ st lang fr, mapGet lang st.duplicatedFrames = some fr →
      uploadStep st lang true =
        ({ st with
            pendingReviews := mapDelete lang st.pendingReviews,
            nodeIdMappings := mapDelete lang st.nodeIdMappings },
          UploadOutcome.advanced (mapDelete lang st.pendingReviews).head?)) := by
  refine ⟨?_, ?_, ?_⟩
  · intro st lang
    unfold uploadStep
    cases hm : mapGet lang st.duplicatedFrames <;> simp
  · intro st lang ok st2 o hstep hne
    cases ok with
    | false =>
      unfold uploadStep at hstep
      cases hm : mapGet lang st.duplicatedFrames <;> rw [hm] at hstep <;> simp at hstep
      · exact absurd hstep.2.symm hne
      · exact absurd hstep.2.symm hne
    | true =>
      unfold uploadStep at hstep
      cases hm : mapGet lang st.duplicatedFrames <;> rw [hm] at hstep <;> simp at hstep
      · exact absurd hstep.2.symm hne
      · rw [← hstep.1, ← hstep.2]
        exact ⟨rfl, rfl, rfl, rfl, rfl, mapGet_mapDelete lang st.pendingReviews,
          mapGet_mapDelete lang st.nodeIdMappings, rfl⟩
  · intro st lang fr hm
    unfold uploadStep
    rw [hm]
    simp

/-- Witness for C10: on the concrete two-language state `stW`, a failed
upload for "fr" changes nothing, and a successful one deletes exactly the
"fr" queue and mapping and advances to "de". -/
theorem claim_C10_upload_atomicity_witness :
    uploadStep stW (tl "fr") false = (stW, UploadOutcome.error) ∧
    mapGet (tl "fr") stW.duplicatedFrames = some ⟨tl "100:1", tl "Ad fr"⟩ ∧
    uploadStep stW (tl "fr") true =
      ({ stW with
          pendingReviews := mapDelete (tl "fr") stW.pendingReviews,
          nodeIdMappings := mapDelete (tl "fr") stW.nodeIdMappings },
        UploadOutcome.advanced (mapDelete (tl "fr") stW.pendingReviews).head?) :=
  ⟨claim_C10_upload_atomicity.1 stW (tl "fr"), by decide,
    claim_C10_upload_atomicity.2.2 stW (tl "fr") ⟨tl "100:1", tl "Ad fr"⟩ (by decide)⟩

end AdTrans
